import Mathlib

/-!
Verification of the VDF format layer of the steam-library-fixer repository
(`src/vdf_parser.py`): tokenizer, recursive-descent parser, document tree
and writer, embedded shallowly as executable Lean functions.

Conventions of the embedding:
* Python strings are Lean `String`s; processing happens on `String.data`
  (a `List Char`), so every definition is structurally recursive and
  kernel-reducible.
* Python's `dict` is modelled by the ordered association structure `Doc`;
  `dict[key] = value` is `Doc.insertKV`, which updates in place on an
  existing key (keeping its original position) and appends otherwise,
  matching CPython insertion-order semantics.
* The `while` loop of `_parse_section` is modelled by the fuel-indexed
  function `parseSecF`; fuel `lines.length + 1` is proved sufficient below
  (the loop index strictly increases), so `parse` uses that canonical fuel.
* Whitespace sets (`str.strip`, regex `\S`) and the numeric acceptors of
  `int()` / `float()` are modelled over the ASCII fragment of Python's
  behaviour (sign, digits, underscores between digits, fractional and
  exponent parts, surrounding ASCII whitespace); theorems whose truth
  depends on exact numeric acceptance carry hypotheses restricted to this
  fragment.
-/

namespace VDF

/-- The double-quote character, written via its code point. -/
def qc : Char := Char.ofNat 34

/-- The opening-brace character. -/
def ob : Char := Char.ofNat 123

/-- The closing-brace character. -/
def cb : Char := Char.ofNat 125

/-- The one-character string holding an opening brace. -/
def obS : String := String.mk [ob]

/-- The one-character string holding a closing brace. -/
def cbS : String := String.mk [cb]

/-- ASCII whitespace as stripped by `str.strip()` and matched by `\s`:
space, tab, newline, carriage return, vertical tab, form feed. -/
def pyIsSpace (c : Char) : Bool :=
  c == ' ' || c == '\t' || c == '\n' || c == '\r' ||
    c == Char.ofNat 11 || c == Char.ofNat 12

/-- Strip ASCII whitespace from both ends of a character list,
modelling `str.strip()`. -/
def stripL (l : List Char) : List Char :=
  ((l.dropWhile pyIsSpace).reverse.dropWhile pyIsSpace).reverse

/-- Strip ASCII whitespace from both ends of a string. -/
def pyStrip (s : String) : String := String.mk (stripL s.data)

/-- Split a character list at newline characters, keeping empty pieces,
modelling `str.split('\n')` (which yields one piece even for `""`). -/
def splitNl : List Char → List (List Char)
  | [] => [[]]
  | c :: rest =>
    if c == '\n' then [] :: splitNl rest
    else
      match splitNl rest with
      | [] => [[c]]
      | l :: ls => (c :: l) :: ls

/-- Split a string into its physical lines, modelling `content.split('\n')`. -/
def splitNlS (s : String) : List String := (splitNl s.data).map String.mk

/-- Join strings with newline separators, modelling `'\n'.join(lines)`. -/
def joinNl : List String → String
  | [] => ""
  | [x] => x
  | x :: rest => x ++ "\n" ++ joinNl rest

/-- Join strings with single-space separators (used to build test lines). -/
def joinSp : List String → String
  | [] => ""
  | [x] => x
  | x :: rest => x ++ " " ++ joinSp rest

/-- Test whether a (stripped) line starts with `//`,
modelling `line.startswith('//')`. -/
def isComment : List Char → Bool
  | c1 :: c2 :: _ => c1 == '/' && c2 == '/'
  | _ => false

/-- Decide whether a character is an ASCII decimal digit. -/
def isDigit (c : Char) : Bool := 48 ≤ c.toNat && c.toNat ≤ 57

/-- Continuation of a digit group: digits with single underscores allowed
only between digits, as in CPython numeric literals accepted by
`int()` / `float()`. -/
def digTail : List Char → Bool
  | [] => true
  | '_' :: c :: rest => isDigit c && digTail rest
  | c :: rest => isDigit c && digTail rest

/-- A non-empty digit group with underscores only between digits. -/
def digGroup : List Char → Bool
  | [] => false
  | c :: rest => isDigit c && digTail rest

/-- Numeric value of a digit group, skipping underscores. -/
def digValNat (l : List Char) : Nat :=
  l.foldl (fun n c => if isDigit c then n * 10 + (c.toNat - 48) else n) 0

/-- Model of CPython `int(s)` over ASCII strings: optional surrounding
whitespace, optional sign, then a digit group; `none` models `ValueError`. -/
def pyInt? (s : String) : Option Int :=
  let l := stripL s.data
  match l with
  | '+' :: rest => if digGroup rest then some (digValNat rest : Int) else none
  | '-' :: rest => if digGroup rest then some (-(digValNat rest : Int)) else none
  | rest => if digGroup rest then some (digValNat rest : Int) else none

/-- Test for the exponent marker of a float literal. -/
def isE (c : Char) : Bool := c == 'e' || c == 'E'

/-- Exponent part of a float literal after the `e`/`E`: optional sign and a
digit group. -/
def expOk : List Char → Bool
  | '+' :: rest => digGroup rest
  | '-' :: rest => digGroup rest
  | rest => digGroup rest

/-- Mantissa of a float literal: `digits [. digits?]`, `. digits`, or
`digits`. -/
def mantOk (l : List Char) : Bool :=
  if l.contains '.' then
    let intPart := l.takeWhile (fun c => !(c == '.'))
    let frac := (l.dropWhile (fun c => !(c == '.'))).tail
    if frac.contains '.' then false
    else if intPart.isEmpty then digGroup frac
    else digGroup intPart && (frac.isEmpty || digGroup frac)
  else digGroup l

/-- Model of the acceptance of CPython `float(s)` over ASCII numeric
literals: optional whitespace and sign, mantissa, optional exponent.
The named forms `inf`/`infinity`/`nan` are not modelled: the source only
calls `float` on strings containing `'.'`, which those forms never do. -/
def pyFloatOk (s : String) : Bool :=
  let l := stripL s.data
  let core :=
    match l with
    | '+' :: rest => rest
    | '-' :: rest => rest
    | rest => rest
  let mant := core.takeWhile (fun c => !(isE c))
  let rest := core.dropWhile (fun c => !(isE c))
  match rest with
  | [] => mantOk mant
  | _ :: e => mantOk mant && expOk e

mutual
/-- Values stored in a parsed document, mirroring the Python value space of
`_parse_section`: strings, `int()` results, `float()` results (tagged by
the source text they were parsed from), and nested dictionaries. -/
inductive Value where
  | str : String → Value
  | int : Int → Value
  | float : String → Value
  | sec : Doc → Value
  deriving DecidableEq
/-- Ordered key/value association modelling a Python `dict` with string
keys, in insertion order. -/
inductive Doc where
  | nil : Doc
  | cons : String → Value → Doc → Doc
  deriving DecidableEq
end

/-- Numeric coercion applied by `_parse_section` to a two-token value:
`float(value)` when the text contains `'.'`, else `int(value)`, keeping the
string on `ValueError`. -/
def coerce (s : String) : Value :=
  if s.data.contains '.' then
    if pyFloatOk s then Value.float s else Value.str s
  else
    match pyInt? s with
    | some n => Value.int n
    | none => Value.str s

/-- Whether the coercion of `_parse_section` replaces the string by a
number. -/
def pyCoerces (s : String) : Bool :=
  if s.data.contains '.' then pyFloatOk s else (pyInt? s).isSome

/-- Membership of a key, modelling `key in dict`. -/
def Doc.memKey : Doc → String → Bool
  | .nil, _ => false
  | .cons k0 _ rest, k => k0 == k || rest.memKey k

/-- Lookup of a key, modelling `dict.get(key)`. -/
def Doc.lookup : Doc → String → Option Value
  | .nil, _ => none
  | .cons k0 v0 rest, k => if k0 == k then some v0 else rest.lookup k

/-- Assignment `dict[key] = value`: overwrite in place when the key exists
(keeping its original position), append otherwise. -/
def Doc.insertKV : Doc → String → Value → Doc
  | .nil, k, v => .cons k v .nil
  | .cons k0 v0 rest, k, v =>
    if k0 == k then .cons k0 v rest else .cons k0 v0 (rest.insertKV k v)

/-- Concatenation of two association lists. -/
def Doc.append : Doc → Doc → Doc
  | .nil, d => d
  | .cons k v rest, d => .cons k v (rest.append d)

/-- The ordered key list of a document. -/
def Doc.keys : Doc → List String
  | .nil => []
  | .cons k _ rest => k :: rest.keys

/-- Tokenizer worker, modelling one `re.findall` scan of
`r'"([^"]*)"|(\S+)'` with the source's post-filter that drops falsy
(empty) tokens.  At each position: whitespace is skipped; a double quote
with a later closing quote yields the verbatim text between the quotes
(dropped when empty); otherwise the maximal run of non-whitespace
characters is one token.  Fuel bounds the recursion; `l.length` is always
enough, as each step consumes at least one character. -/
def tokAux : Nat → List Char → List String
  | 0, _ => []
  | _, [] => []
  | fuel + 1, c :: rest =>
    if pyIsSpace c then tokAux fuel rest
    else if c == qc && rest.contains qc then
      let content := rest.takeWhile (fun ch => !(ch == qc))
      let rest2 := (rest.dropWhile (fun ch => !(ch == qc))).tail
      if content.isEmpty then tokAux fuel rest2
      else String.mk content :: tokAux fuel rest2
    else
      String.mk ((c :: rest).takeWhile (fun ch => !(pyIsSpace ch))) ::
        tokAux fuel ((c :: rest).dropWhile (fun ch => !(pyIsSpace ch)))

/-- Tokenization of a character list with canonical fuel. -/
def tokenizeL (l : List Char) : List String := tokAux l.length l

/-- Model of `VDFParser._tokenize`. -/
def tokenize (s : String) : List String := tokenizeL s.data

/-- One iteration of the `while` loop of `VDFParser._parse_section`, with
the rest of the computation abstracted as the continuation `next`
(taking the next line index, accumulated document and pending key).
Matching the source: blank and `//` lines are skipped; a stripped `}` ends
the section at the next index; a leading `{` token opens a nested section
for a truthy pending key and is otherwise skipped; one token sets the
pending key; two tokens store a (numerically coerced) scalar without
touching the pending key; other lines are skipped. -/
def psfStep (lines : List String)
    (next : Nat → Doc → Option String → Doc × Nat) (i : Nat) (acc : Doc)
    (ck : Option String) : Doc × Nat :=
  match lines[i]? with
  | none => (acc, i)
  | some rawLine =>
    if pyStrip rawLine == "" || isComment (pyStrip rawLine).data then
      next (i + 1) acc ck
    else if pyStrip rawLine == cbS then (acc, i + 1)
    else
      match tokenize (pyStrip rawLine) with
      | [] => next (i + 1) acc ck
      | t :: ts =>
        if t == obS then
          match ck with
          | some k =>
            if k == "" then next (i + 1) acc ck
            else
              next (next (i + 1) Doc.nil none).2
                (acc.insertKV k (Value.sec (next (i + 1) Doc.nil none).1)) none
          | none => next (i + 1) acc ck
        else
          match ts with
          | [] => next (i + 1) acc (some t)
          | [v] => next (i + 1) (acc.insertKV t (coerce v)) ck
          | _ => next (i + 1) acc ck

/-- Model of `VDFParser._parse_section`, fuel-indexed: each loop iteration
or recursive descent peels one unit of fuel and performs one `psfStep`. -/
def parseSecF : Nat → List String → Nat → Doc → Option String → Doc × Nat
  | 0, _, i, acc, _ => (acc, i)
  | fuel + 1, lines, i, acc, ck => psfStep lines (parseSecF fuel lines) i acc ck

/-- One `_parse_section` call at the canonical, provably sufficient fuel. -/
def parseStab (lines : List String) (i : Nat) (acc : Doc) (ck : Option String) :
    Doc × Nat :=
  parseSecF (lines.length + 1) lines i acc ck

/-- Parse a list of physical lines: `_parse_section(lines, 0)[0]`. -/
def parseLines (lines : List String) : Doc := (parseStab lines 0 .nil none).1

/-- Model of `VDFParser.parse`. -/
def parse (content : String) : Doc := parseLines (splitNlS content)

/-- Parse with explicit fuel, used to state that the recursion completes
within fuel bounded by the input size. -/
def parseFuel (fuel : Nat) (content : String) : Doc :=
  (parseSecF fuel (splitNlS content) 0 .nil none).1

/-- Rendering of a non-dict value by the f-string `f'"{value}"'`:
Python `str()` of the stored value.  For `float` values the stored source
text stands in for CPython float repr; no theorem below depends on the
rendering of a float.  The `sec` branch is unreachable: the writer
serializes dictionaries structurally. -/
def pyStr : Value → String
  | .str s => s
  | .int n => toString n
  | .float s => s
  | .sec _ => ""

/-- Indentation of `indent_level` tab characters. -/
def ind (lvl : Nat) : String := String.mk (List.replicate lvl '\t')

/-- Wrap a string in double quotes. -/
def qS (s : String) : String := String.mk (qc :: s.data ++ [qc])

mutual
/-- Lines appended by `VDFParser.write` for one entry: a nested dict
contributes its quoted-key line, a `{` line, the joined recursive
rendering as a single (possibly multi-line or empty) element, and a `}`
line; any other value contributes one `"key"\t\t"value"` line. -/
def writeV (lvl : Nat) (k : String) : Value → List String
  | .sec inner =>
    [ind lvl ++ qS k, ind lvl ++ obS, joinNl (writeD (lvl + 1) inner),
      ind lvl ++ cbS]
  | v => [ind lvl ++ qS k ++ "\t\t" ++ qS (pyStr v)]
/-- The element list accumulated by `VDFParser.write` over a document. -/
def writeD (lvl : Nat) : Doc → List String
  | .nil => []
  | .cons k v rest => writeV lvl k v ++ writeD lvl rest
end

/-- Model of `VDFParser.write(data)` at top level. -/
def write (d : Doc) : String := joinNl (writeD 0 d)

mutual
/-- Physical lines of the serialized form of one entry: like `writeV`, but
with the nested rendering flattened into its physical lines — an empty
nested dict contributes the single empty line that `'\n'.join` produces
for it. -/
def flatV (lvl : Nat) (k : String) : Value → List String
  | .sec inner =>
    [ind lvl ++ qS k, ind lvl ++ obS] ++
      (match inner with
        | .nil => [""]
        | _ => flatD (lvl + 1) inner) ++ [ind lvl ++ cbS]
  | v => [ind lvl ++ qS k ++ "\t\t" ++ qS (pyStr v)]
/-- Physical lines of the serialized form of a document. -/
def flatD (lvl : Nat) : Doc → List String
  | .nil => []
  | .cons k v rest => flatV lvl k v ++ flatD lvl rest
end

mutual
/-- Reference rendering following the specification's words for the
writer: a scalar entry is one line of quoted key, two tabs, quoted value;
a section entry is a quoted-key line, a `{` line, the nested rendering one
level deeper, and a `}` line; each line carries one tab per nesting
level. -/
def specV (lvl : Nat) (k : String) : Value → List String
  | .sec inner =>
    [ind lvl ++ qS k, ind lvl ++ obS] ++ specD (lvl + 1) inner ++
      [ind lvl ++ cbS]
  | v => [ind lvl ++ qS k ++ "\t\t" ++ qS (pyStr v)]
/-- Reference rendering of a document following the specification's
words. -/
def specD (lvl : Nat) : Doc → List String
  | .nil => []
  | .cons k v rest => specV lvl k v ++ specD lvl rest
end

/-- Build the physical line of one scalar entry as the writer emits it at
top level. -/
def kvLine (k v : String) : String := qS k ++ "\t\t" ++ qS v

/-- Physical lines for a list of scalar entries. -/
def kvLines (kvs : List (String × String)) : List String :=
  kvs.map fun p => kvLine p.1 p.2

/-- Fold scalar assignments into a document the way the two-token branch
of `_parse_section` does. -/
def foldKV (acc : Doc) : List (String × String) → Doc
  | [] => acc
  | (k, v) :: rest => foldKV (acc.insertKV k (coerce v)) rest

/-- A key that the writer can serialize and the parser reads back intact:
non-empty, ASCII, free of double quotes and newlines, and not the
one-character brace token. -/
def cleanKey (k : String) : Bool :=
  !(k == "") && !(k == obS) && !(k.data.contains qc) && !(k.data.contains '\n') &&
    k.data.all fun c => c.toNat ≤ 126

/-- Scalar text that survives a serialize/parse round trip: non-empty,
ASCII, free of double quotes and newlines, and not numerically coerced. -/
def cleanStr (s : String) : Bool :=
  !(s == "") && !(s.data.contains qc) && !(s.data.contains '\n') &&
    (s.data.all fun c => c.toNat ≤ 126) && !(pyCoerces s)

mutual
/-- Values of a clean document: string scalars with clean text, or clean
sections. -/
def cleanV : Value → Bool
  | .str s => cleanStr s
  | .sec d => cleanD d
  | _ => false
/-- Clean documents: clean, pairwise-distinct keys with clean values. -/
def cleanD : Doc → Bool
  | .nil => true
  | .cons k v rest => cleanKey k && !(rest.memKey k) && cleanV v && cleanD rest
end

mutual
/-- Keys are pairwise distinct at every nesting level of a value. -/
def nodupV : Value → Bool
  | .sec d => nodupD d
  | _ => true
/-- Keys are pairwise distinct at every nesting level of a document. -/
def nodupD : Doc → Bool
  | .nil => true
  | .cons k v rest => !(rest.memKey k) && nodupV v && nodupD rest
end

mutual
/-- Every key is non-empty at every nesting level of a value. -/
def keysNeV : Value → Bool
  | .sec d => keysNeD d
  | _ => true
/-- Every key is non-empty at every nesting level of a document. -/
def keysNeD : Doc → Bool
  | .nil => true
  | .cons k v rest => !(k == "") && keysNeV v && keysNeD rest
end

mutual
/-- Well-formedness for statements about the writer's line shape: only
string scalars (the specification's scalar model) with no newline in their
text, keys without newlines, and every section non-empty. -/
def wfV : Value → Bool
  | .str s => !(s.data.contains '\n')
  | .sec d =>
    (match d with
      | .nil => false
      | _ => true) && wfD d
  | _ => false
/-- Well-formedness of a document for writer line-shape statements. -/
def wfD : Doc → Bool
  | .nil => true
  | .cons k v rest => !(k.data.contains '\n') && wfV v && wfD rest
end

mutual
/-- Newline-freeness of the strings of a value (string scalars and nested
sections only). -/
def noNlV : Value → Bool
  | .str s => !(s.data.contains '\n')
  | .sec d => noNlD d
  | _ => false
/-- Newline-freeness of the keys and scalar texts of a document. -/
def noNlD : Doc → Bool
  | .nil => true
  | .cons k v rest => !(k.data.contains '\n') && noNlV v && noNlD rest
end

end VDF

namespace VDF

theorem mk_data (s : String) : String.mk s.data = s := rfl

theorem mk_ne_empty (c : Char) (l : List Char) : String.mk (c :: l) ≠ "" := by
  intro h
  exact List.cons_ne_nil c l (congrArg String.data h)

theorem contains_eq_false_iff (l : List Char) (c : Char) :
    l.contains c = false ↔ c ∉ l := by
  rw [← Bool.not_eq_true, List.contains, List.elem_iff]

theorem pyIsSpace_tab : pyIsSpace '\t' = true := by decide

theorem pyIsSpace_qc : pyIsSpace qc = false := by decide

theorem dropWhile_tabs (n : Nat) (l : List Char) :
    (List.replicate n '\t' ++ l).dropWhile pyIsSpace = l.dropWhile pyIsSpace := by
  induction n with
  | zero => simp
  | succ m ih =>
    rw [List.replicate_succ, List.cons_append,
      List.dropWhile_cons_of_pos (by simp [pyIsSpace_tab]), ih]

theorem stripL_tabs (n : Nat) (l : List Char) :
    stripL (List.replicate n '\t' ++ l) = stripL l := by
  unfold stripL
  rw [dropWhile_tabs]

theorem stripL_quoted (mid : List Char) :
    stripL (qc :: mid ++ [qc]) = qc :: mid ++ [qc] := by
  have h1 : List.dropWhile pyIsSpace (qc :: (mid ++ [qc])) = qc :: (mid ++ [qc]) :=
    List.dropWhile_cons_of_neg (by simp [pyIsSpace_qc])
  have h2 : (qc :: (mid ++ [qc])).reverse = qc :: (mid.reverse ++ [qc]) := by
    simp
  unfold stripL
  rw [show qc :: mid ++ [qc] = qc :: (mid ++ [qc]) from rfl, h1, h2,
    List.dropWhile_cons_of_neg (by simp [pyIsSpace_qc]), ← h2,
    List.reverse_reverse]

theorem splitNl_ne_nil (l : List Char) : splitNl l ≠ [] := by
  induction l with
  | nil => simp [splitNl]
  | cons c rest ih =>
    by_cases h : c = '\n'
    · simp [splitNl, h]
    · simp only [splitNl, beq_iff_eq, if_neg h]
      obtain ⟨x, xs, hx⟩ := List.exists_cons_of_ne_nil ih
      rw [hx]
      simp

theorem splitNl_sep (a b : List Char) :
    splitNl (a ++ '\n' :: b) = splitNl a ++ splitNl b := by
  induction a with
  | nil => simp [splitNl]
  | cons c rest ih =>
    by_cases h : c = '\n'
    · simp [splitNl, h, ih]
    · obtain ⟨x, xs, hx⟩ := List.exists_cons_of_ne_nil (splitNl_ne_nil rest)
      simp [splitNl, if_neg h, ih, hx]

theorem splitNl_noNl (a : List Char) (h : '\n' ∉ a) : splitNl a = [a] := by
  induction a with
  | nil => rfl
  | cons c rest ih =>
    have hc : ¬(c = '\n') := fun hh => h (hh ▸ List.mem_cons_self c rest)
    have hr : '\n' ∉ rest := fun hh => h (List.mem_cons_of_mem c hh)
    simp only [splitNl, beq_iff_eq, if_neg hc, ih hr]

theorem joinNl_cons (x : String) (xs : List String) (h : xs ≠ []) :
    joinNl (x :: xs) = x ++ "\n" ++ joinNl xs := by
  obtain ⟨y, ys, hy⟩ := List.exists_cons_of_ne_nil h
  subst hy
  rfl

theorem joinNl_append (A B : List String) (hA : A ≠ []) (hB : B ≠ []) :
    joinNl (A ++ B) = joinNl A ++ "\n" ++ joinNl B := by
  induction A with
  | nil => exact absurd rfl hA
  | cons x A' ih =>
    by_cases h : A' = []
    · subst h
      simpa using joinNl_cons x B hB
    · rw [List.cons_append, joinNl_cons x (A' ++ B) (by simp [h]),
        joinNl_cons x A' h, ih h]
      simp [String.append_assoc]

theorem joinNl_data_cons (x : String) (xs : List String) (h : xs ≠ []) :
    (joinNl (x :: xs)).data = x.data ++ '\n' :: (joinNl xs).data := by
  rw [joinNl_cons x xs h]
  simp

theorem splitNlS_join (L : List String) (hnl : ∀ l ∈ L, '\n' ∉ l.data)
    (hne : L ≠ []) : splitNlS (joinNl L) = L := by
  induction L with
  | nil => exact absurd rfl hne
  | cons x xs ih =>
    by_cases h : xs = []
    · subst h
      unfold splitNlS
      rw [show joinNl [x] = x from rfl, splitNl_noNl x.data (hnl x (by simp))]
      simp [mk_data]
    · unfold splitNlS
      rw [joinNl_data_cons x xs h, splitNl_sep,
        splitNl_noNl x.data (hnl x (by simp))]
      simp only [List.map_append, List.map_cons, List.map_nil, mk_data]
      have := ih (fun l hl => hnl l (List.mem_cons_of_mem x hl)) h
      unfold splitNlS at this
      rw [this]
      simp

end VDF

namespace VDF

theorem str_ne_empty_iff (s : String) : s ≠ "" ↔ s.data ≠ [] := by
  constructor
  · intro h hd
    exact h (String.ext hd)
  · intro h hd
    exact h (congrArg String.data hd)

theorem takeWhile_middle (p : Char → Bool) (l : List Char) (x : Char)
    (r : List Char) (hl : ∀ c ∈ l, p c = true) (hx : p x = false) :
    (l ++ x :: r).takeWhile p = l := by
  induction l with
  | nil => simp [List.takeWhile_cons, hx]
  | cons c cs ih =>
    rw [List.cons_append, List.takeWhile_cons_of_pos (hl c (by simp)),
      ih fun d hd => hl d (by simp [hd])]

theorem dropWhile_middle (p : Char → Bool) (l : List Char) (x : Char)
    (r : List Char) (hl : ∀ c ∈ l, p c = true) (hx : p x = false) :
    (l ++ x :: r).dropWhile p = x :: r := by
  induction l with
  | nil => simp [List.dropWhile_cons, hx]
  | cons c cs ih =>
    rw [List.cons_append, List.dropWhile_cons_of_pos (hl c (by simp)),
      ih fun d hd => hl d (by simp [hd])]

theorem dropWhile_len_le (p : Char → Bool) (l : List Char) :
    (l.dropWhile p).length ≤ l.length :=
  (List.dropWhile_suffix p).length_le

theorem tokAux_succ : ∀ (f : Nat) (l : List Char), l.length ≤ f →
    tokAux (f + 1) l = tokAux f l := by
  intro f
  induction f with
  | zero =>
    intro l hl
    rw [List.length_eq_zero.mp (Nat.le_zero.mp hl)]
    rfl
  | succ g ih =>
    intro l hl
    match l with
    | [] => rfl
    | c :: rest =>
      have hr : rest.length ≤ g := Nat.le_of_succ_le_succ hl
      by_cases hsp : pyIsSpace c = true
      · simp only [tokAux, hsp, if_pos]
        exact ih rest hr
      · by_cases hq : (c == qc && rest.contains qc) = true
        · have h2 : ((rest.dropWhile fun ch => !(ch == qc)).tail).length ≤ g := by
            have h5 := dropWhile_len_le (fun ch => !(ch == qc)) rest
            have h6 := List.length_tail (rest.dropWhile fun ch => !(ch == qc))
            omega
          simp only [tokAux, hsp, hq, if_pos, if_neg, Bool.not_eq_true]
          by_cases he : (rest.takeWhile fun ch => !(ch == qc)).isEmpty = true
          · simp only [he, if_pos]
            exact ih _ h2
          · simp only [he, if_neg, Bool.not_eq_true]
            rw [ih _ h2]
        · have h3 : ((c :: rest).dropWhile fun ch => !(pyIsSpace ch)).length ≤ g := by
            rw [List.dropWhile_cons_of_pos (by simp [hsp])]
            have h5 := dropWhile_len_le (fun ch => !(pyIsSpace ch)) rest
            omega
          simp only [tokAux, hsp, hq, if_neg, Bool.not_eq_true]
          rw [ih _ h3]

theorem tokAux_stab : ∀ (f : Nat) (l : List Char), l.length ≤ f →
    tokAux f l = tokenizeL l := by
  intro f
  induction f with
  | zero =>
    intro l hl
    rw [List.length_eq_zero.mp (Nat.le_zero.mp hl)]
    rfl
  | succ g ih =>
    intro l hl
    by_cases h : l.length ≤ g
    · rw [tokAux_succ g l h, ih l h]
    · have : l.length = g + 1 := by omega
      rw [tokenizeL, this]

theorem tokL_space (ch : Char) (rest : List Char) (h : pyIsSpace ch = true) :
    tokenizeL (ch :: rest) = tokenizeL rest := by
  show tokAux (rest.length + 1) (ch :: rest) = tokenizeL rest
  simp only [tokAux, h, if_pos]
  exact tokAux_stab rest.length rest (Nat.le_refl _)

theorem tokL_quoted (content rest : List Char) (h : qc ∉ content) :
    tokenizeL (qc :: (content ++ qc :: rest)) =
      if content.isEmpty then tokenizeL rest
      else String.mk content :: tokenizeL rest := by
  have hcon : ((content ++ qc :: rest).contains qc) = true := by
    rw [List.contains, List.elem_iff]
    exact List.mem_append_right content (List.mem_cons_self qc rest)
  have htw : ((content ++ qc :: rest).takeWhile fun ch => !(ch == qc)) = content :=
    takeWhile_middle _ content qc rest
      (fun c hc => by simp; exact fun he => h (he ▸ hc)) (by simp)
  have hdw : ((content ++ qc :: rest).dropWhile fun ch => !(ch == qc)) = qc :: rest :=
    dropWhile_middle _ content qc rest
      (fun c hc => by simp; exact fun he => h (he ▸ hc)) (by simp)
  show tokAux ((content ++ qc :: rest).length + 1) (qc :: (content ++ qc :: rest)) = _
  simp only [tokAux, pyIsSpace_qc, Bool.false_eq_true, if_false, beq_self_eq_true,
    Bool.true_and, hcon, if_pos, htw, hdw, List.tail_cons]
  have hlen : rest.length ≤ (content ++ qc :: rest).length := by
    simp
    omega
  rw [tokAux_stab _ rest hlen]

theorem tokAux_ne_empty : ∀ (f : Nat) (l : List Char) (t : String),
    t ∈ tokAux f l → t ≠ "" := by
  intro f
  induction f with
  | zero =>
    intro l t ht
    simp [tokAux] at ht
  | succ g ih =>
    intro l t ht
    match l with
    | [] => simp [tokAux] at ht
    | c :: rest =>
      by_cases hsp : pyIsSpace c = true
      · simp only [tokAux, hsp, if_pos] at ht
        exact ih rest t ht
      · by_cases hq : (c == qc && rest.contains qc) = true
        · simp only [tokAux, hsp, hq, if_pos, if_neg, Bool.not_eq_true] at ht
          by_cases he : (rest.takeWhile fun ch => !(ch == qc)).isEmpty = true
          · simp only [he, if_pos] at ht
            exact ih _ t ht
          · simp only [he, if_neg, Bool.not_eq_true, List.mem_cons] at ht
            rcases ht with ht | ht
            · have hne2 : (rest.takeWhile fun ch => !(ch == qc)) ≠ [] := by
                intro hnil
                rw [hnil] at he
                exact he rfl
              obtain ⟨x, xs, hx⟩ := List.exists_cons_of_ne_nil hne2
              rw [ht, hx]
              exact mk_ne_empty x xs
            · exact ih _ t ht
        · simp only [tokAux, hsp, hq, if_neg, Bool.not_eq_true, List.mem_cons] at ht
          rcases ht with ht | ht
          · rw [ht, List.takeWhile_cons_of_pos (by simp [hsp])]
            exact mk_ne_empty _ _
          · exact ih _ t ht

theorem tokenize_ne_empty (s : String) (t : String) (ht : t ∈ tokenize s) :
    t ≠ "" :=
  tokAux_ne_empty _ _ t ht

end VDF

namespace VDF

theorem qS_data (s : String) : (qS s).data = qc :: s.data ++ [qc] := rfl

theorem kvLine_data (k v : String) :
    (kvLine k v).data =
      qc :: (k.data ++ qc :: ('\t' :: '\t' :: (qc :: (v.data ++ qc :: [])))) := by
  show ((qS k ++ "\t\t") ++ qS v).data = _
  simp [qS_data]

theorem tokenize_qS (k : String) (hq : qc ∉ k.data) (hne : k ≠ "") :
    tokenize (qS k) = [k] := by
  show tokenizeL (qS k).data = [k]
  rw [qS_data]
  have : qc :: k.data ++ [qc] = qc :: (k.data ++ qc :: []) := by simp
  rw [this, tokL_quoted k.data [] hq]
  rw [if_neg (by simpa [List.isEmpty_iff] using (str_ne_empty_iff k).mp hne)]
  rfl

theorem tokenize_kvLine (k v : String) (hqk : qc ∉ k.data) (hk : k ≠ "")
    (hqv : qc ∉ v.data) (hv : v ≠ "") :
    tokenize (kvLine k v) = [k, v] := by
  show tokenizeL (kvLine k v).data = [k, v]
  rw [kvLine_data, tokL_quoted k.data _ hqk,
    if_neg (by simpa [List.isEmpty_iff] using (str_ne_empty_iff k).mp hk)]
  rw [tokL_space '\t' _ (by decide), tokL_space '\t' _ (by decide),
    tokL_quoted v.data [] hqv,
    if_neg (by simpa [List.isEmpty_iff] using (str_ne_empty_iff v).mp hv)]
  rfl

theorem tokenize_obS : tokenize obS = [obS] := by decide

theorem tokenize_cbS : tokenize cbS = [cbS] := by decide

theorem coerce_of_not_coerces (s : String) (h : pyCoerces s = false) :
    coerce s = Value.str s := by
  unfold coerce
  unfold pyCoerces at h
  by_cases hd : s.data.contains '.' = true
  · rw [if_pos hd] at h ⊢
    rw [if_neg (by simp [h])]
  · rw [if_neg hd] at h ⊢
    match hint : pyInt? s with
    | some n => rw [hint] at h; simp at h
    | none => rfl

theorem coerce_eq_str_iff (s : String) :
    coerce s = Value.str s ↔ pyCoerces s = false := by
  constructor
  · intro h
    unfold coerce at h
    unfold pyCoerces
    by_cases hd : s.data.contains '.' = true
    · rw [if_pos hd] at h ⊢
      by_cases hf : pyFloatOk s = true
      · rw [if_pos hf] at h
        exact absurd h (by simp)
      · simp [hf]
    · rw [if_neg hd] at h ⊢
      match hint : pyInt? s with
      | some n => rw [hint] at h; exact absurd h (by simp)
      | none => simp [hint]
  · exact coerce_of_not_coerces s

theorem isComment_of_head_ne (c : Char) (l : List Char) (h : ¬(c = '/')) :
    isComment (c :: l) = false := by
  match l with
  | [] => rfl
  | c2 :: rest => simp [isComment, h]

end VDF

namespace VDF

theorem psfStep_le (lines : List String)
    (next : Nat → Doc → Option String → Doc × Nat)
    (hnext : ∀ (j : Nat) (a : Doc) (c : Option String), j ≤ (next j a c).2) :
    ∀ (i : Nat) (acc : Doc) (ck : Option String),
      i ≤ (psfStep lines next i acc ck).2 := by
  intro i acc ck
  unfold psfStep
  split
  · exact Nat.le_refl i
  · split
    · exact Nat.le_trans (Nat.le_succ i) (hnext (i + 1) _ _)
    · split
      · exact Nat.le_succ i
      · split
        · exact Nat.le_trans (Nat.le_succ i) (hnext (i + 1) _ _)
        · split
          · split
            next k =>
              split
              · exact Nat.le_trans (Nat.le_succ i) (hnext (i + 1) _ _)
              · have h1 := hnext (i + 1) Doc.nil none
                have h2 := hnext (next (i + 1) Doc.nil none).2
                  (acc.insertKV k (Value.sec (next (i + 1) Doc.nil none).1)) none
                omega
            next => exact Nat.le_trans (Nat.le_succ i) (hnext (i + 1) _ _)
          · split
            · exact Nat.le_trans (Nat.le_succ i) (hnext (i + 1) _ _)
            · exact Nat.le_trans (Nat.le_succ i) (hnext (i + 1) _ _)
            · exact Nat.le_trans (Nat.le_succ i) (hnext (i + 1) _ _)

theorem psf_le (lines : List String) :
    ∀ (f i : Nat) (acc : Doc) (ck : Option String),
      i ≤ (parseSecF f lines i acc ck).2 := by
  intro f
  induction f with
  | zero =>
    intro i acc ck
    exact Nat.le_refl i
  | succ g ih =>
    intro i acc ck
    exact psfStep_le lines (parseSecF g lines) ih i acc ck

theorem psfStep_ub (lines : List String)
    (next : Nat → Doc → Option String → Doc × Nat)
    (hnext : ∀ (j : Nat) (a : Doc) (c : Option String), j ≤ lines.length →
      (next j a c).2 ≤ lines.length) :
    ∀ (i : Nat) (acc : Doc) (ck : Option String), i ≤ lines.length →
      (psfStep lines next i acc ck).2 ≤ lines.length := by
  intro i acc ck hi
  unfold psfStep
  split
  · exact hi
  next rawLine hl =>
    have hlt : i < lines.length := (List.getElem?_eq_some.mp hl).1
    split
    · exact hnext (i + 1) _ _ hlt
    · split
      · exact hlt
      · split
        · exact hnext (i + 1) _ _ hlt
        · split
          · split
            · split
              · exact hnext (i + 1) _ _ hlt
              · exact hnext _ _ none (hnext (i + 1) Doc.nil none hlt)
            · exact hnext (i + 1) _ _ hlt
          · split
            · exact hnext (i + 1) _ _ hlt
            · exact hnext (i + 1) _ _ hlt
            · exact hnext (i + 1) _ _ hlt

theorem psf_ub (lines : List String) :
    ∀ (f i : Nat) (acc : Doc) (ck : Option String), i ≤ lines.length →
      (parseSecF f lines i acc ck).2 ≤ lines.length := by
  intro f
  induction f with
  | zero =>
    intro i acc ck hi
    exact hi
  | succ g ih =>
    intro i acc ck
    exact psfStep_ub lines (parseSecF g lines) ih i acc ck

theorem psfStep_congr (lines : List String)
    (next1 next2 : Nat → Doc → Option String → Doc × Nat) (i : Nat)
    (acc : Doc) (ck : Option String)
    (hprog : ∀ (j : Nat) (a : Doc) (c : Option String), j ≤ (next2 j a c).2)
    (h : i < lines.length → ∀ (j : Nat) (a : Doc) (c : Option String),
      i + 1 ≤ j → next1 j a c = next2 j a c) :
    psfStep lines next1 i acc ck = psfStep lines next2 i acc ck := by
  unfold psfStep
  split
  · rfl
  next rawLine hl =>
    have h2 := h (List.getElem?_eq_some.mp hl).1
    split
    · exact h2 (i + 1) _ _ (Nat.le_refl _)
    · split
      · rfl
      · split
        · exact h2 (i + 1) _ _ (Nat.le_refl _)
        · split
          · split
            · split
              · exact h2 (i + 1) _ _ (Nat.le_refl _)
              · rw [h2 (i + 1) Doc.nil none (Nat.le_refl _)]
                exact h2 _ _ none (Nat.le_trans (Nat.le_refl _)
                  (hprog (i + 1) Doc.nil none))
            · exact h2 (i + 1) _ _ (Nat.le_refl _)
          · split
            · exact h2 (i + 1) _ _ (Nat.le_refl _)
            · exact h2 (i + 1) _ _ (Nat.le_refl _)
            · exact h2 (i + 1) _ _ (Nat.le_refl _)

theorem psf_succ (lines : List String) :
    ∀ (f i : Nat) (acc : Doc) (ck : Option String), lines.length - i < f →
      parseSecF (f + 1) lines i acc ck = parseSecF f lines i acc ck := by
  intro f
  induction f with
  | zero =>
    intro i acc ck h
    omega
  | succ g ih =>
    intro i acc ck h
    show psfStep lines (parseSecF (g + 1) lines) i acc ck =
      psfStep lines (parseSecF g lines) i acc ck
    exact psfStep_congr lines (parseSecF (g + 1) lines) (parseSecF g lines)
      i acc ck (fun j a c => psf_le lines g j a c)
      (fun hi j a c hj => ih j a c (by omega))

theorem psf_stab_of_le (lines : List String) (i : Nat) (acc : Doc)
    (ck : Option String) :
    ∀ (f g : Nat), lines.length - i < f → f ≤ g →
      parseSecF g lines i acc ck = parseSecF f lines i acc ck := by
  intro f g hf hfg
  induction g with
  | zero =>
    have : f = 0 := Nat.le_zero.mp hfg
    rw [this]
  | succ m ih =>
    by_cases h : f = m + 1
    · rw [h]
    · have hfm : f ≤ m := by omega
      rw [psf_succ lines m i acc ck (by omega), ih hfm]

theorem psf_stab (lines : List String) (f i : Nat) (acc : Doc)
    (ck : Option String) (hf : lines.length - i < f) :
    parseSecF f lines i acc ck = parseStab lines i acc ck := by
  unfold parseStab
  by_cases h : f ≤ lines.length + 1
  · exact (psf_stab_of_le lines i acc ck f (lines.length + 1) hf h).symm
  · exact psf_stab_of_le lines i acc ck (lines.length + 1) f (by omega) (by omega)

end VDF

namespace VDF

theorem pst_eof (lines : List String) (i : Nat) (acc : Doc) (ck : Option String)
    (h : lines.length ≤ i) : parseStab lines i acc ck = (acc, i) := by
  show psfStep lines (parseSecF lines.length lines) i acc ck = (acc, i)
  unfold psfStep
  rw [List.getElem?_eq_none h]

theorem parseStab_unfold (lines : List String) (i : Nat) (acc : Doc)
    (ck : Option String) (hi : i < lines.length) :
    parseStab lines i acc ck =
      psfStep lines (fun j a c => parseStab lines j a c) i acc ck := by
  show psfStep lines (parseSecF lines.length lines) i acc ck = _
  exact psfStep_congr lines (parseSecF lines.length lines)
    (fun j a c => parseStab lines j a c) i acc ck
    (fun j a c => psf_le lines (lines.length + 1) j a c)
    (fun hlt j a c hj => psf_stab lines lines.length j a c (by omega))

theorem pst_skip (lines : List String) (i : Nat) (acc : Doc) (ck : Option String)
    (raw : String) (hl : lines[i]? = some raw)
    (hb : (pyStrip raw == "" || isComment (pyStrip raw).data) = true) :
    parseStab lines i acc ck = parseStab lines (i + 1) acc ck := by
  rw [parseStab_unfold lines i acc ck (List.getElem?_eq_some.mp hl).1]
  simp only [psfStep, hl, hb, if_true]

theorem pst_close (lines : List String) (i : Nat) (acc : Doc) (ck : Option String)
    (raw : String) (hl : lines[i]? = some raw) (hs : pyStrip raw = cbS) :
    parseStab lines i acc ck = (acc, i + 1) := by
  rw [parseStab_unfold lines i acc ck (List.getElem?_eq_some.mp hl).1]
  simp only [psfStep, hl, hs]
  rw [if_neg (by decide), if_pos (by rfl)]

theorem pst_key (lines : List String) (i : Nat) (acc : Doc) (ck : Option String)
    (raw t : String) (hl : lines[i]? = some raw)
    (hb : (pyStrip raw == "" || isComment (pyStrip raw).data) = false)
    (hcb : ¬(pyStrip raw = cbS)) (htok : tokenize (pyStrip raw) = [t])
    (hob : ¬(t = obS)) :
    parseStab lines i acc ck = parseStab lines (i + 1) acc (some t) := by
  rw [parseStab_unfold lines i acc ck (List.getElem?_eq_some.mp hl).1]
  simp only [psfStep, hl, hb, Bool.false_eq_true, if_false, htok]
  rw [if_neg (by simp [hcb]), if_neg (by simp [hob])]

theorem pst_kv (lines : List String) (i : Nat) (acc : Doc) (ck : Option String)
    (raw t v : String) (hl : lines[i]? = some raw)
    (hb : (pyStrip raw == "" || isComment (pyStrip raw).data) = false)
    (hcb : ¬(pyStrip raw = cbS)) (htok : tokenize (pyStrip raw) = [t, v])
    (hob : ¬(t = obS)) :
    parseStab lines i acc ck =
      parseStab lines (i + 1) (acc.insertKV t (coerce v)) ck := by
  rw [parseStab_unfold lines i acc ck (List.getElem?_eq_some.mp hl).1]
  simp only [psfStep, hl, hb, Bool.false_eq_true, if_false, htok]
  rw [if_neg (by simp [hcb]), if_neg (by simp [hob])]

theorem pst_descend (lines : List String) (i : Nat) (acc : Doc) (k : String)
    (raw : String) (ts : List String) (hl : lines[i]? = some raw)
    (hb : (pyStrip raw == "" || isComment (pyStrip raw).data) = false)
    (hcb : ¬(pyStrip raw = cbS)) (htok : tokenize (pyStrip raw) = obS :: ts)
    (hk : ¬(k = "")) :
    parseStab lines i acc (some k) =
      parseStab lines (parseStab lines (i + 1) Doc.nil none).2
        (acc.insertKV k (Value.sec (parseStab lines (i + 1) Doc.nil none).1))
        none := by
  rw [parseStab_unfold lines i acc (some k) (List.getElem?_eq_some.mp hl).1]
  simp only [psfStep, hl, hb, Bool.false_eq_true, if_false, htok]
  rw [if_neg (by simp [hcb]), if_pos (by simp), if_neg (by simp [hk])]

theorem pst_open_none (lines : List String) (i : Nat) (acc : Doc)
    (raw : String) (ts : List String) (hl : lines[i]? = some raw)
    (hb : (pyStrip raw == "" || isComment (pyStrip raw).data) = false)
    (hcb : ¬(pyStrip raw = cbS)) (htok : tokenize (pyStrip raw) = obS :: ts) :
    parseStab lines i acc none = parseStab lines (i + 1) acc none := by
  rw [parseStab_unfold lines i acc none (List.getElem?_eq_some.mp hl).1]
  simp only [psfStep, hl, hb, Bool.false_eq_true, if_false, htok]
  rw [if_neg (by simp [hcb]), if_pos (by simp)]

theorem pst_toks3 (lines : List String) (i : Nat) (acc : Doc) (ck : Option String)
    (raw t v1 v2 : String) (vs : List String) (hl : lines[i]? = some raw)
    (hb : (pyStrip raw == "" || isComment (pyStrip raw).data) = false)
    (hcb : ¬(pyStrip raw = cbS))
    (htok : tokenize (pyStrip raw) = t :: v1 :: v2 :: vs) (hob : ¬(t = obS)) :
    parseStab lines i acc ck = parseStab lines (i + 1) acc ck := by
  rw [parseStab_unfold lines i acc ck (List.getElem?_eq_some.mp hl).1]
  simp only [psfStep, hl, hb, Bool.false_eq_true, if_false, htok]
  rw [if_neg (by simp [hcb]), if_neg (by simp [hob])]

end VDF

namespace VDF

theorem Doc.nil_append (d : Doc) : Doc.nil.append d = d := rfl

theorem Doc.append_nil : ∀ (d : Doc), d.append Doc.nil = d
  | .nil => rfl
  | .cons k v rest => by
    show Doc.cons k v (rest.append Doc.nil) = _
    rw [Doc.append_nil rest]

theorem Doc.append_assoc : ∀ (a : Doc) (b c : Doc),
    (a.append b).append c = a.append (b.append c)
  | .nil, b, c => rfl
  | .cons k v rest, b, c => by
    show Doc.cons k v ((rest.append b).append c) = _
    rw [Doc.append_assoc rest b c]
    rfl

theorem Doc.lookup_cons (k0 : String) (v0 : Value) (rest : Doc) (k : String) :
    (Doc.cons k0 v0 rest).lookup k =
      if k0 == k then some v0 else rest.lookup k := rfl

theorem Doc.memKey_cons (k0 : String) (v0 : Value) (rest : Doc) (k : String) :
    (Doc.cons k0 v0 rest).memKey k = (k0 == k || rest.memKey k) := rfl

theorem Doc.memKey_append : ∀ (a : Doc) (b : Doc) (k : String),
    (a.append b).memKey k = (a.memKey k || b.memKey k)
  | .nil, b, k => rfl
  | .cons k0 v0 rest, b, k => by
    show (k0 == k || (rest.append b).memKey k) = _
    rw [Doc.memKey_append rest b k, Doc.memKey_cons]
    exact (Bool.or_assoc _ _ _).symm

theorem Doc.insertKV_fresh : ∀ (d : Doc) (k : String) (v : Value),
    d.memKey k = false → d.insertKV k v = d.append (.cons k v .nil)
  | .nil, k, v, _ => rfl
  | .cons k0 v0 rest, k, v, h => by
    have h0 : (k0 == k) = false := by
      unfold Doc.memKey at h
      exact (Bool.or_eq_false_iff.mp h).1
    have hr : rest.memKey k = false := by
      unfold Doc.memKey at h
      exact (Bool.or_eq_false_iff.mp h).2
    show (if (k0 == k) = true then Doc.cons k0 v rest
      else Doc.cons k0 v0 (rest.insertKV k v)) = _
    rw [if_neg (by simp [h0]), Doc.insertKV_fresh rest k v hr]
    rfl

theorem Doc.lookup_insertKV : ∀ (d : Doc) (k k1 : String) (v : Value),
    (d.insertKV k v).lookup k1 = if k == k1 then some v else d.lookup k1
  | .nil, k, k1, v => by
    show (if (k == k1) = true then some v else none) = _
    by_cases h : (k == k1) = true
    · rw [if_pos h, if_pos h]
    · rw [if_neg h, if_neg h]
      rfl
  | .cons k0 v0 rest, k, k1, v => by
    by_cases h0 : (k0 == k) = true
    · have hk0 : k0 = k := by simpa using h0
      show ((if (k0 == k) = true then Doc.cons k0 v rest
        else Doc.cons k0 v0 (rest.insertKV k v)).lookup k1) = _
      rw [if_pos h0]
      subst hk0
      by_cases h1 : (k0 == k1) = true
      · show (if (k0 == k1) = true then some v else rest.lookup k1) = _
        rw [if_pos h1, if_pos h1]
      · show (if (k0 == k1) = true then some v else rest.lookup k1) = _
        rw [if_neg h1, if_neg h1, Doc.lookup_cons, if_neg h1]
    · show ((if (k0 == k) = true then Doc.cons k0 v rest
        else Doc.cons k0 v0 (rest.insertKV k v)).lookup k1) = _
      rw [if_neg h0]
      show (if (k0 == k1) = true then some v0
        else (rest.insertKV k v).lookup k1) = _
      by_cases h1 : (k0 == k1) = true
      · have hne : (k == k1) = false := by
          have e0 : k0 = k1 := by simpa using h1
          have : ¬(k = k1) := fun he => (by simpa using h0 : ¬(k0 = k)) (he ▸ e0)
          simp [this]
        rw [if_pos h1, hne]
        simp only [Bool.false_eq_true, if_false]
        rw [Doc.lookup_cons, if_pos h1]
      · rw [if_neg h1, Doc.lookup_insertKV rest k k1 v]
        by_cases h2 : (k == k1) = true
        · rw [if_pos h2, if_pos h2]
        · rw [if_neg h2, if_neg h2, Doc.lookup_cons, if_neg h1]

theorem Doc.memKey_insertKV : ∀ (d : Doc) (k k1 : String) (v : Value),
    (d.insertKV k v).memKey k1 = (d.memKey k1 || k == k1)
  | .nil, k, k1, v => by
    show (k == k1 || false) = (false || k == k1)
    simp
  | .cons k0 v0 rest, k, k1, v => by
    by_cases h0 : (k0 == k) = true
    · show ((if (k0 == k) = true then Doc.cons k0 v rest
        else Doc.cons k0 v0 (rest.insertKV k v)).memKey k1) = _
      rw [if_pos h0]
      have hk0 : k0 = k := by simpa using h0
      subst hk0
      show (k0 == k1 || rest.memKey k1) = _
      by_cases h1 : (k0 == k1) = true
      · simp [h1]
      · simp [h1, Doc.memKey, Bool.or_comm]
    · show ((if (k0 == k) = true then Doc.cons k0 v rest
        else Doc.cons k0 v0 (rest.insertKV k v)).memKey k1) = _
      rw [if_neg h0]
      show (k0 == k1 || (rest.insertKV k v).memKey k1) = _
      rw [Doc.memKey_insertKV rest k k1 v, ← Bool.or_assoc]
      rfl

end VDF

namespace VDF

theorem nodupV_coerce (v : String) : nodupV (coerce v) = true := by
  unfold coerce
  split
  · split <;> rfl
  · split <;> rfl

theorem keysNeV_coerce (v : String) : keysNeV (coerce v) = true := by
  unfold coerce
  split
  · split <;> rfl
  · split <;> rfl

theorem nodupD_cons (k : String) (v : Value) (rest : Doc) :
    nodupD (.cons k v rest) = (!(rest.memKey k) && nodupV v && nodupD rest) := by
  rfl

theorem keysNeD_cons (k : String) (v : Value) (rest : Doc) :
    keysNeD (.cons k v rest) = (!(k == "") && keysNeV v && keysNeD rest) := by
  rfl

theorem nodupD_insertKV : ∀ (d : Doc) (k : String) (v : Value),
    nodupD d = true → nodupV v = true → nodupD (d.insertKV k v) = true
  | .nil, k, v, _, hv => by
    show nodupD (.cons k v .nil) = true
    simp [nodupD_cons, hv, Doc.memKey, nodupD]
  | .cons k0 v0 rest, k, v, hd, hv => by
    rw [nodupD_cons] at hd
    simp only [Bool.and_eq_true, Bool.not_eq_true'] at hd
    obtain ⟨⟨h1, h2⟩, h3⟩ := hd
    by_cases h0 : (k0 == k) = true
    · show nodupD (if (k0 == k) = true then Doc.cons k0 v rest
        else Doc.cons k0 v0 (rest.insertKV k v)) = true
      rw [if_pos h0, nodupD_cons]
      simp [h1, hv, h3]
    · show nodupD (if (k0 == k) = true then Doc.cons k0 v rest
        else Doc.cons k0 v0 (rest.insertKV k v)) = true
      rw [if_neg h0, nodupD_cons, Doc.memKey_insertKV]
      have hkk0 : (k == k0) = false := by
        have : ¬(k0 = k) := by simpa using h0
        simp
        exact fun he => this he.symm
      simp [h1, hkk0, h2, nodupD_insertKV rest k v h3 hv]

theorem keysNeD_insertKV : ∀ (d : Doc) (k : String) (v : Value),
    keysNeD d = true → ¬(k = "") → keysNeV v = true →
      keysNeD (d.insertKV k v) = true
  | .nil, k, v, _, hk, hv => by
    show keysNeD (.cons k v .nil) = true
    simp [keysNeD_cons, hv, keysNeD]
    simpa using hk
  | .cons k0 v0 rest, k, v, hd, hk, hv => by
    rw [keysNeD_cons] at hd
    simp only [Bool.and_eq_true, Bool.not_eq_true'] at hd
    obtain ⟨⟨h1, h2⟩, h3⟩ := hd
    by_cases h0 : (k0 == k) = true
    · show keysNeD (if (k0 == k) = true then Doc.cons k0 v rest
        else Doc.cons k0 v0 (rest.insertKV k v)) = true
      rw [if_pos h0, keysNeD_cons]
      simp [h1, hv, h3]
    · show keysNeD (if (k0 == k) = true then Doc.cons k0 v rest
        else Doc.cons k0 v0 (rest.insertKV k v)) = true
      rw [if_neg h0, keysNeD_cons]
      simp [h1, h2, keysNeD_insertKV rest k v h3 hk hv]

theorem psfStep_inv (lines : List String)
    (next : Nat → Doc → Option String → Doc × Nat)
    (hnext : ∀ (j : Nat) (a : Doc) (c : Option String),
      nodupD a = true → keysNeD a = true →
      nodupD (next j a c).1 = true ∧ keysNeD (next j a c).1 = true) :
    ∀ (i : Nat) (acc : Doc) (ck : Option String),
      nodupD acc = true → keysNeD acc = true →
      nodupD (psfStep lines next i acc ck).1 = true ∧
        keysNeD (psfStep lines next i acc ck).1 = true := by
  intro i acc ck hn hk
  unfold psfStep
  split
  · exact ⟨hn, hk⟩
  · split
    · exact hnext _ _ _ hn hk
    · split
      · exact ⟨hn, hk⟩
      · split
        · exact hnext _ _ _ hn hk
        next x t ts heq =>
          split
          · split
            next k =>
              split
              · exact hnext _ _ _ hn hk
              next hkne =>
                obtain ⟨hn1, hk1⟩ := hnext (i + 1) Doc.nil none rfl rfl
                refine hnext _ _ none ?_ ?_
                · exact nodupD_insertKV acc k _ hn
                    (by show nodupD _ = true; exact hn1)
                · refine keysNeD_insertKV acc k _ hk (by simpa using hkne) ?_
                  show keysNeD _ = true
                  exact hk1
            next => exact hnext _ _ _ hn hk
          · split
            · exact hnext _ _ _ hn hk
            · rename_i v
              have htne : ¬(t = "") :=
                tokenize_ne_empty _ t (heq.symm ▸ List.mem_cons_self t [v])
              exact hnext _ _ _
                (nodupD_insertKV acc t _ hn (nodupV_coerce v))
                (keysNeD_insertKV acc t _ hk htne (keysNeV_coerce v))
            next => exact hnext _ _ _ hn hk

theorem psf_inv (lines : List String) :
    ∀ (f i : Nat) (acc : Doc) (ck : Option String),
      nodupD acc = true → keysNeD acc = true →
      nodupD (parseSecF f lines i acc ck).1 = true ∧
        keysNeD (parseSecF f lines i acc ck).1 = true := by
  intro f
  induction f with
  | zero =>
    intro i acc ck hn hk
    exact ⟨hn, hk⟩
  | succ g ih =>
    intro i acc ck hn hk
    exact psfStep_inv lines (parseSecF g lines) ih i acc ck hn hk

theorem parse_nodup (content : String) : nodupD (parse content) = true :=
  (psf_inv (splitNlS content) ((splitNlS content).length + 1) 0 .nil none
    rfl rfl).1

theorem parse_keysNe (content : String) : keysNeD (parse content) = true :=
  (psf_inv (splitNlS content) ((splitNlS content).length + 1) 0 .nil none
    rfl rfl).2

end VDF

namespace VDF

/-- A token that serializes into a quoted token and parses back to itself:
non-empty, no double quote, no newline. -/
def tokOk (s : String) : Bool :=
  !(s == "") && !(s.data.contains qc) && !(s.data.contains '\n')

/-- A scalar entry whose line round-trips through the tokenizer: clean key
(also not the brace token) and clean value text. -/
def pairOk (p : String × String) : Bool :=
  tokOk p.1 && !(p.1 == obS) && tokOk p.2

theorem pairOk_dest (k v : String) (h : pairOk (k, v) = true) :
    k ≠ "" ∧ qc ∉ k.data ∧ '\n' ∉ k.data ∧ ¬(k = obS) ∧
      v ≠ "" ∧ qc ∉ v.data ∧ '\n' ∉ v.data := by
  simp only [pairOk, tokOk, Bool.and_eq_true, Bool.not_eq_true'] at h
  obtain ⟨⟨⟨⟨h1, h2⟩, h3⟩, h4⟩, ⟨h5, h6⟩, h7⟩ := h
  exact ⟨beq_eq_false_iff_ne.mp h1, (contains_eq_false_iff _ _).mp h2,
    (contains_eq_false_iff _ _).mp h3, beq_eq_false_iff_ne.mp h4,
    beq_eq_false_iff_ne.mp h5, (contains_eq_false_iff _ _).mp h6,
    (contains_eq_false_iff _ _).mp h7⟩

theorem pyStrip_kvLine (k v : String) : pyStrip (kvLine k v) = kvLine k v := by
  have h : (kvLine k v).data =
      qc :: (k.data ++ qc :: '\t' :: '\t' :: qc :: v.data) ++ [qc] := by
    rw [kvLine_data]
    simp
  show String.mk (stripL (kvLine k v).data) = kvLine k v
  rw [h, stripL_quoted, ← h, mk_data]

theorem kvLine_ne_empty (k v : String) : kvLine k v ≠ "" := by
  intro hh
  have h1 := congrArg String.data hh
  rw [kvLine_data] at h1
  exact List.cons_ne_nil _ _ h1

theorem kvLine_not_comment (k v : String) :
    isComment (kvLine k v).data = false := by
  rw [kvLine_data]
  exact isComment_of_head_ne qc _ (by decide)

theorem kvLine_ne_cbS (k v : String) : ¬(kvLine k v = cbS) := by
  intro hh
  have h1 : (kvLine k v).data = cbS.data := congrArg String.data hh
  rw [kvLine_data] at h1
  have h2 : some qc = some cb := congrArg List.head? h1
  exact (by decide : ¬(qc = cb)) (Option.some.inj h2)

theorem kvLine_blank_check (k v : String) :
    (pyStrip (kvLine k v) == "" || isComment (pyStrip (kvLine k v)).data)
      = false := by
  rw [pyStrip_kvLine, beq_eq_false_iff_ne.mpr (kvLine_ne_empty k v),
    kvLine_not_comment]
  rfl

theorem getMid0 (L1 : List String) (x : String) (M : List String) :
    (L1 ++ x :: M)[L1.length]? = some x := by
  rw [List.getElem?_append_right (Nat.le_refl L1.length)]
  simp

theorem consumeFlat : ∀ (kvs : List (String × String)) (L1 L2 : List String)
    (acc : Doc) (ck : Option String), kvs.all pairOk = true →
    parseStab (L1 ++ kvLines kvs ++ L2) L1.length acc ck
      = parseStab (L1 ++ kvLines kvs ++ L2) (L1.length + kvs.length)
          (foldKV acc kvs) ck := by
  intro kvs
  induction kvs with
  | nil =>
    intro L1 L2 acc ck _
    simp [kvLines, foldKV]
  | cons p rest ih =>
    obtain ⟨k, v⟩ := p
    intro L1 L2 acc ck hall
    rw [List.all_cons, Bool.and_eq_true] at hall
    obtain ⟨hp, hrest⟩ := hall
    obtain ⟨hk, hqk, hnk, hob, hv, hqv, hnv⟩ := pairOk_dest k v hp
    have hlines : L1 ++ kvLines ((k, v) :: rest) ++ L2
        = L1 ++ kvLine k v :: (kvLines rest ++ L2) := by
      simp [kvLines, kvLine]
    have hl : (L1 ++ kvLines ((k, v) :: rest) ++ L2)[L1.length]?
        = some (kvLine k v) := by
      rw [hlines]
      exact getMid0 L1 (kvLine k v) (kvLines rest ++ L2)
    have htok : tokenize (pyStrip (kvLine k v)) = [k, v] := by
      rw [pyStrip_kvLine]
      exact tokenize_kvLine k v hqk hk hqv hv
    have hcb : ¬(pyStrip (kvLine k v) = cbS) := by
      rw [pyStrip_kvLine]
      exact kvLine_ne_cbS k v
    rw [pst_kv (L1 ++ kvLines ((k, v) :: rest) ++ L2) L1.length acc ck
      (kvLine k v) k v hl (kvLine_blank_check k v) hcb htok hob]
    have hassoc : L1 ++ kvLines ((k, v) :: rest) ++ L2
        = (L1 ++ [kvLine k v]) ++ kvLines rest ++ L2 := by
      simp [kvLines, kvLine]
    have hidx : (L1 ++ [kvLine k v]).length = L1.length + 1 := by simp
    have hmain := ih (L1 ++ [kvLine k v]) L2 (acc.insertKV k (coerce v)) ck hrest
    rw [hidx] at hmain
    rw [hassoc, hmain]
    have hcount : L1.length + 1 + rest.length
        = L1.length + ((k, v) :: rest).length := by
      simp
      omega
    rw [hcount]
    rfl

end VDF

namespace VDF

theorem splitNlS_sep (a b : String) :
    splitNlS (a ++ "\n" ++ b) = splitNlS a ++ splitNlS b := by
  unfold splitNlS
  have h : (a ++ "\n" ++ b).data = a.data ++ '\n' :: b.data := by simp
  rw [h, splitNl_sep, List.map_append]

theorem splitNlS_noNl (a : String) (h : '\n' ∉ a.data) : splitNlS a = [a] := by
  unfold splitNlS
  rw [splitNl_noNl a.data h]
  simp [mk_data]

theorem joinNl_splitNl : ∀ (l : List Char),
    joinNl ((splitNl l).map String.mk) = String.mk l := by
  intro l
  induction l with
  | nil => rfl
  | cons c rest ih =>
    by_cases hc : c = '\n'
    · subst hc
      rw [show splitNl ('\n' :: rest) = [] :: splitNl rest by simp [splitNl]]
      rw [List.map_cons,
        joinNl_cons _ _ (by simp [splitNl_ne_nil rest]), ih]
      apply String.ext
      simp
    · obtain ⟨l0, ls, hsp⟩ := List.exists_cons_of_ne_nil (splitNl_ne_nil rest)
      have hred : splitNl (c :: rest) = (c :: l0) :: ls := by
        simp only [splitNl, beq_iff_eq, if_neg hc, hsp]
      rw [hred, List.map_cons]
      rw [hsp, List.map_cons] at ih
      by_cases hls : ls = []
      · subst hls
        simp only [List.map_nil] at ih ⊢
        have : String.mk l0 = String.mk rest := by
          simpa [joinNl] using ih
        have hl0 : l0 = rest := congrArg String.data this
        subst hl0
        rfl
      · have hmne : ls.map String.mk ≠ [] := by simp [hls]
        rw [joinNl_cons _ _ hmne] at ih
        rw [joinNl_cons _ _ hmne]
        apply String.ext
        have hdata := congrArg String.data ih
        simp at hdata
        simp [hdata]
  
theorem joinNl_splitNlS (s : String) : joinNl (splitNlS s) = s := by
  unfold splitNlS
  rw [joinNl_splitNl s.data, mk_data]

theorem writeV_ne_nil (lvl : Nat) (k : String) (v : Value) :
    writeV lvl k v ≠ [] := by
  match v with
  | .str s => simp [writeV]
  | .int n => simp [writeV]
  | .float s => simp [writeV]
  | .sec inner => simp [writeV]

theorem writeD_ne_nil (lvl : Nat) (k : String) (v : Value) (rest : Doc) :
    writeD lvl (.cons k v rest) ≠ [] := by
  show writeV lvl k v ++ writeD lvl rest ≠ []
  simp [writeV_ne_nil lvl k v]

end VDF

namespace VDF

theorem noNlD_dest (k : String) (v : Value) (rest : Doc)
    (h : noNlD (.cons k v rest) = true) :
    '\n' ∉ k.data ∧ noNlV v = true ∧ noNlD rest = true := by
  have h2 : (!(k.data.contains '\n') && noNlV v && noNlD rest) = true := h
  simp only [Bool.and_eq_true, Bool.not_eq_true'] at h2
  exact ⟨(contains_eq_false_iff _ _).mp h2.1.1, h2.1.2, h2.2⟩

theorem noNl_keyLine (lvl : Nat) (k : String) (hk : '\n' ∉ k.data) :
    '\n' ∉ (ind lvl ++ qS k).data := by
  intro hmem
  simp only [String.data_append, ind, qS, List.mem_append, List.mem_cons,
    List.mem_singleton, List.mem_replicate, List.not_mem_nil,
    iff_false_intro hk, iff_false_intro (by decide : ¬('\n' = '\t')),
    iff_false_intro (by decide : ¬('\n' = qc)), or_false, false_or,
    and_false, false_and] at hmem

theorem noNl_braceLine (lvl : Nat) (b : Char) (hb : ¬('\n' = b)) :
    '\n' ∉ (ind lvl ++ String.mk [b]).data := by
  intro hmem
  simp only [String.data_append, ind, List.mem_append, List.mem_cons,
    List.mem_singleton, List.mem_replicate, List.not_mem_nil,
    iff_false_intro hb, iff_false_intro (by decide : ¬('\n' = '\t')),
    or_false, false_or, and_false, false_and] at hmem

theorem noNl_obLine (lvl : Nat) : '\n' ∉ (ind lvl ++ obS).data :=
  noNl_braceLine lvl ob (by decide)

theorem noNl_cbLine (lvl : Nat) : '\n' ∉ (ind lvl ++ cbS).data :=
  noNl_braceLine lvl cb (by decide)

theorem noNl_scalarLine (lvl : Nat) (k s : String) (hk : '\n' ∉ k.data)
    (hs : '\n' ∉ s.data) :
    '\n' ∉ (ind lvl ++ qS k ++ "\t\t" ++ qS s).data := by
  intro hmem
  simp only [String.data_append, ind, qS, List.mem_append, List.mem_cons,
    List.mem_singleton, List.mem_replicate, List.not_mem_nil,
    iff_false_intro hk, iff_false_intro hs,
    iff_false_intro (by decide : ¬('\n' = '\t')),
    iff_false_intro (by decide : ¬('\n' = qc)), or_false, false_or,
    and_false, false_and] at hmem

end VDF

namespace VDF

mutual
theorem splitV : ∀ (lvl : Nat) (k : String) (v : Value), noNlV v = true →
    '\n' ∉ k.data → splitNlS (joinNl (writeV lvl k v)) = flatV lvl k v
  | lvl, k, .str s, hv, hk => by
    have hs : '\n' ∉ s.data := by
      have h2 : (!(s.data.contains '\n')) = true := hv
      simp only [Bool.not_eq_true'] at h2
      exact (contains_eq_false_iff _ _).mp h2
    show splitNlS (joinNl [ind lvl ++ qS k ++ "\t\t" ++ qS s]) = _
    rw [show joinNl [ind lvl ++ qS k ++ "\t\t" ++ qS s]
      = ind lvl ++ qS k ++ "\t\t" ++ qS s from rfl]
    rw [splitNlS_noNl _ (noNl_scalarLine lvl k s hk hs)]
    rfl
  | lvl, k, .int n, hv, hk => by
    exact absurd hv (by simp [noNlV])
  | lvl, k, .float s, hv, hk => by
    exact absurd hv (by simp [noNlV])
  | lvl, k, .sec inner, hv, hk => by
    have hinner : noNlD inner = true := hv
    show splitNlS (joinNl [ind lvl ++ qS k, ind lvl ++ obS,
      joinNl (writeD (lvl + 1) inner), ind lvl ++ cbS]) = _
    rw [show joinNl [ind lvl ++ qS k, ind lvl ++ obS,
        joinNl (writeD (lvl + 1) inner), ind lvl ++ cbS]
      = (ind lvl ++ qS k) ++ "\n" ++ ((ind lvl ++ obS) ++ "\n" ++
          (joinNl (writeD (lvl + 1) inner) ++ "\n" ++ (ind lvl ++ cbS)))
      from rfl]
    rw [splitNlS_sep, splitNlS_sep, splitNlS_sep,
      splitNlS_noNl _ (noNl_keyLine lvl k hk),
      splitNlS_noNl _ (noNl_obLine lvl),
      splitNlS_noNl _ (noNl_cbLine lvl)]
    match inner with
    | .nil =>
      show [ind lvl ++ qS k] ++ ([ind lvl ++ obS] ++ (splitNlS (joinNl []) ++
        [ind lvl ++ cbS])) = _
      rw [show joinNl ([] : List String) = "" from rfl,
        show splitNlS "" = [""] from rfl]
      rfl
    | .cons k2 v2 r2 =>
      rw [splitD (lvl + 1) (.cons k2 v2 r2) hinner (by intro h2; cases h2)]
      rfl
theorem splitD : ∀ (lvl : Nat) (d : Doc), noNlD d = true → d ≠ .nil →
    splitNlS (joinNl (writeD lvl d)) = flatD lvl d
  | lvl, .nil, _, hne => absurd rfl hne
  | lvl, .cons k v rest, hd, _ => by
    obtain ⟨hk, hv, hrest⟩ := noNlD_dest k v rest hd
    show splitNlS (joinNl (writeV lvl k v ++ writeD lvl rest)) = _
    match rest with
    | .nil =>
      rw [show writeD lvl Doc.nil = [] from rfl, List.append_nil,
        splitV lvl k v hv hk]
      show _ = flatV lvl k v ++ flatD lvl Doc.nil
      rw [show flatD lvl Doc.nil = [] from rfl, List.append_nil]
    | .cons k2 v2 r2 =>
      rw [joinNl_append _ _ (writeV_ne_nil lvl k v)
        (writeD_ne_nil lvl k2 v2 r2), splitNlS_sep,
        splitV lvl k v hv hk,
        splitD lvl (.cons k2 v2 r2) hrest (by intro h2; cases h2)]
      rfl
end

mutual
theorem flatEqSpecV : ∀ (lvl : Nat) (k : String) (v : Value), wfV v = true →
    flatV lvl k v = specV lvl k v
  | lvl, k, .str s, _ => rfl
  | lvl, k, .int n, hv => absurd hv (by simp [wfV])
  | lvl, k, .float s, hv => absurd hv (by simp [wfV])
  | lvl, k, .sec inner, hv => by
    match inner, hv with
    | .cons k2 v2 r2, hv => ?_
    have hwf : wfD (Doc.cons k2 v2 r2) = true := by
      have h2 : ((true : Bool) && wfD (Doc.cons k2 v2 r2)) = true := hv
      simpa using h2
    show [ind lvl ++ qS k, ind lvl ++ obS] ++ flatD (lvl + 1) (.cons k2 v2 r2)
        ++ [ind lvl ++ cbS] = _
    rw [flatEqSpecD (lvl + 1) (.cons k2 v2 r2) hwf]
    rfl
theorem flatEqSpecD : ∀ (lvl : Nat) (d : Doc), wfD d = true →
    flatD lvl d = specD lvl d
  | lvl, .nil, _ => rfl
  | lvl, .cons k v rest, hd => by
    have h2 : (!(k.data.contains '\n') && wfV v && wfD rest) = true := hd
    simp only [Bool.and_eq_true] at h2
    show flatV lvl k v ++ flatD lvl rest = specV lvl k v ++ specD lvl rest
    rw [flatEqSpecV lvl k v h2.1.2, flatEqSpecD lvl rest h2.2]
end

end VDF

namespace VDF

theorem lastStr_append (a b : String) (hb : b.data ≠ []) :
    (a ++ b).data.getLast? = b.data.getLast? := by
  rw [String.data_append]
  exact List.getLast?_append_of_ne_nil a.data hb

theorem scalarLine_last (lvl : Nat) (k s : String) :
    (ind lvl ++ qS k ++ "\t\t" ++ qS s).data.getLast? = some qc := by
  have h : (ind lvl ++ qS k ++ "\t\t" ++ qS s).data
      = ((ind lvl ++ qS k ++ "\t\t").data ++ (qc :: s.data)) ++ [qc] := by
    simp [qS]
  rw [h, List.getLast?_concat]

theorem cbLine_last (lvl : Nat) : (ind lvl ++ cbS).data.getLast? = some cb := by
  have h : (ind lvl ++ cbS).data = List.replicate lvl '\t' ++ [cb] := by
    simp [ind, cbS]
  rw [h, List.getLast?_concat]

theorem lastV (lvl : Nat) (k : String) (v : Value) :
    (joinNl (writeV lvl k v)).data.getLast? = some qc ∨
      (joinNl (writeV lvl k v)).data.getLast? = some cb := by
  match v with
  | .str s => exact Or.inl (scalarLine_last lvl k s)
  | .int n => exact Or.inl (scalarLine_last lvl k _)
  | .float s => exact Or.inl (scalarLine_last lvl k _)
  | .sec inner =>
    refine Or.inr ?_
    show ((ind lvl ++ qS k) ++ "\n" ++ ((ind lvl ++ obS) ++ "\n" ++
      (joinNl (writeD (lvl + 1) inner) ++ "\n" ++
        (ind lvl ++ cbS)))).data.getLast? = some cb
    rw [lastStr_append _ _ (by simp [ind, obS]),
      lastStr_append _ _ (by simp),
      lastStr_append _ _ (by simp [ind, cbS]),
      cbLine_last]

theorem lastD : ∀ (lvl : Nat) (k : String) (v : Value) (rest : Doc),
    (joinNl (writeD lvl (.cons k v rest))).data.getLast? = some qc ∨
      (joinNl (writeD lvl (.cons k v rest))).data.getLast? = some cb := by
  intro lvl k v rest
  match rest with
  | .nil =>
    have e : writeD lvl (Doc.cons k v Doc.nil) = writeV lvl k v := by
      show writeV lvl k v ++ writeD lvl Doc.nil = writeV lvl k v
      rw [show writeD lvl Doc.nil = [] from rfl, List.append_nil]
    rw [e]
    exact lastV lvl k v
  | .cons k2 v2 r2 =>
    have e : writeD lvl (Doc.cons k v (Doc.cons k2 v2 r2))
        = writeV lvl k v ++ writeD lvl (Doc.cons k2 v2 r2) := rfl
    rw [e, joinNl_append _ _ (writeV_ne_nil lvl k v)
      (writeD_ne_nil lvl k2 v2 r2)]
    have hih := lastD lvl k2 v2 r2
    have hne : (joinNl (writeD lvl (.cons k2 v2 r2))).data ≠ [] := by
      intro h0
      rcases hih with h | h <;> rw [h0] at h <;> cases h
    rw [lastStr_append _ _ hne]
    exact hih

mutual
theorem wf_noNlV : ∀ (v : Value), wfV v = true → noNlV v = true
  | .str s, h => h
  | .int n, h => absurd h (by simp [wfV])
  | .float s, h => absurd h (by simp [wfV])
  | .sec inner, h => by
    show noNlD inner = true
    match inner with
    | .nil => rfl
    | .cons k2 v2 r2 =>
      have h2 : ((true : Bool) && wfD (Doc.cons k2 v2 r2)) = true := h
      simp only [Bool.true_and] at h2
      exact wf_noNlD (Doc.cons k2 v2 r2) h2
theorem wf_noNlD : ∀ (d : Doc), wfD d = true → noNlD d = true
  | .nil, _ => rfl
  | .cons k v rest, h => by
    have h2 : (!(k.data.contains '\n') && wfV v && wfD rest) = true := h
    simp only [Bool.and_eq_true] at h2
    show (!(k.data.contains '\n') && noNlV v && noNlD rest) = true
    simp only [Bool.and_eq_true]
    exact ⟨⟨h2.1.1, wf_noNlV v h2.1.2⟩, wf_noNlD rest h2.2⟩
end

theorem cleanStr_dest (s : String) (h : cleanStr s = true) :
    s ≠ "" ∧ qc ∉ s.data ∧ '\n' ∉ s.data ∧ pyCoerces s = false := by
  unfold cleanStr at h
  simp only [Bool.and_eq_true, Bool.not_eq_true'] at h
  exact ⟨beq_eq_false_iff_ne.mp h.1.1.1.1, (contains_eq_false_iff _ _).mp h.1.1.1.2,
    (contains_eq_false_iff _ _).mp h.1.1.2, h.2⟩

theorem cleanKey_dest (k : String) (h : cleanKey k = true) :
    k ≠ "" ∧ ¬(k = obS) ∧ qc ∉ k.data ∧ '\n' ∉ k.data := by
  unfold cleanKey at h
  simp only [Bool.and_eq_true, Bool.not_eq_true'] at h
  exact ⟨beq_eq_false_iff_ne.mp h.1.1.1.1, beq_eq_false_iff_ne.mp h.1.1.1.2,
    (contains_eq_false_iff _ _).mp h.1.1.2, (contains_eq_false_iff _ _).mp h.1.2⟩

mutual
theorem clean_noNlV : ∀ (v : Value), cleanV v = true → noNlV v = true
  | .str s, h => by
    have h2 : cleanStr s = true := h
    obtain ⟨-, -, h3, -⟩ := cleanStr_dest s h2
    show (!(s.data.contains '\n')) = true
    simp only [Bool.not_eq_true']
    exact (contains_eq_false_iff _ _).mpr h3
  | .int n, h => absurd h (by simp [cleanV])
  | .float s, h => absurd h (by simp [cleanV])
  | .sec inner, h => by
    show noNlD inner = true
    exact clean_noNlD inner h
theorem clean_noNlD : ∀ (d : Doc), cleanD d = true → noNlD d = true
  | .nil, _ => rfl
  | .cons k v rest, h => by
    have h2 : (cleanKey k && !(rest.memKey k) && cleanV v && cleanD rest)
        = true := h
    simp only [Bool.and_eq_true] at h2
    obtain ⟨ck, -, hnl⟩ := cleanKey_dest k h2.1.1.1
    show (!(k.data.contains '\n') && noNlV v && noNlD rest) = true
    simp only [Bool.and_eq_true]
    refine ⟨⟨?_, clean_noNlV v h2.1.2⟩, clean_noNlD rest h2.2⟩
    simp only [Bool.not_eq_true']
    exact (contains_eq_false_iff _ _).mpr hnl.2

end

end VDF

namespace VDF

theorem pyStrip_keyLine (lvl : Nat) (k : String) :
    pyStrip (ind lvl ++ qS k) = qS k := by
  show String.mk (stripL (ind lvl ++ qS k).data) = qS k
  have h : (ind lvl ++ qS k).data
      = List.replicate lvl '\t' ++ (qc :: k.data ++ [qc]) := by
    simp [ind, qS]
  rw [h, stripL_tabs, stripL_quoted]
  rfl

theorem pyStrip_scalarLine (lvl : Nat) (k s : String) :
    pyStrip (ind lvl ++ qS k ++ "\t\t" ++ qS s) = kvLine k s := by
  show String.mk (stripL (ind lvl ++ qS k ++ "\t\t" ++ qS s).data) = kvLine k s
  have h : (ind lvl ++ qS k ++ "\t\t" ++ qS s).data
      = List.replicate lvl '\t' ++
          (qc :: (k.data ++ qc :: '\t' :: '\t' :: qc :: s.data) ++ [qc]) := by
    simp [ind, qS]
  rw [h, stripL_tabs, stripL_quoted]
  apply String.ext
  rw [kvLine_data]
  simp

theorem pyStrip_obLine (lvl : Nat) : pyStrip (ind lvl ++ obS) = obS := by
  show String.mk (stripL (ind lvl ++ obS).data) = obS
  have h : (ind lvl ++ obS).data = List.replicate lvl '\t' ++ [ob] := by
    simp [ind, obS]
  rw [h, stripL_tabs]
  rfl

theorem pyStrip_cbLine (lvl : Nat) : pyStrip (ind lvl ++ cbS) = cbS := by
  show String.mk (stripL (ind lvl ++ cbS).data) = cbS
  have h : (ind lvl ++ cbS).data = List.replicate lvl '\t' ++ [cb] := by
    simp [ind, cbS]
  rw [h, stripL_tabs]
  rfl

theorem qS_ne_empty (k : String) : qS k ≠ "" := by
  intro hh
  exact List.cons_ne_nil _ _ (congrArg String.data hh)

theorem qS_not_comment (k : String) : isComment (qS k).data = false := by
  have h : (qS k).data = qc :: (k.data ++ [qc]) := by simp [qS]
  rw [h]
  exact isComment_of_head_ne qc _ (by decide)

theorem qS_blank_check (k : String) :
    (qS k == "" || isComment (qS k).data) = false := by
  rw [beq_eq_false_iff_ne.mpr (qS_ne_empty k), qS_not_comment]
  rfl

theorem qS_ne_cbS (k : String) : ¬(qS k = cbS) := by
  intro hh
  have h1 : (qS k).data = cbS.data := congrArg String.data hh
  have h2 : (qS k).data = qc :: (k.data ++ [qc]) := by simp [qS]
  rw [h2] at h1
  have h3 : some qc = some cb := congrArg List.head? h1
  exact (by decide : ¬(qc = cb)) (Option.some.inj h3)

theorem obS_blank_check : (obS == "" || isComment obS.data) = false := by
  decide

theorem obS_ne_cbS : ¬(obS = cbS) := by
  decide

theorem kvLine_blank_raw (k v : String) :
    (kvLine k v == "" || isComment (kvLine k v).data) = false := by
  rw [beq_eq_false_iff_ne.mpr (kvLine_ne_empty k v), kvLine_not_comment]
  rfl

theorem qS_blank_raw (k : String) :
    (qS k == "" || isComment (qS k).data) = false := by
  rw [beq_eq_false_iff_ne.mpr (qS_ne_empty k), qS_not_comment]
  rfl

theorem getAt (L1 M L2 : List String) (j : Nat) (x : String)
    (hj : M[j]? = some x) :
    (L1 ++ M ++ L2)[L1.length + j]? = some x := by
  have hjlt : j < M.length := (List.getElem?_eq_some.mp hj).1
  rw [List.append_assoc,
    List.getElem?_append_right (by omega : L1.length ≤ L1.length + j)]
  have h2 : L1.length + j - L1.length = j := by omega
  rw [h2, List.getElem?_append_left hjlt, hj]

/-- Keys of the second document all absent from the first. -/
def disjKeys (acc : Doc) : Doc → Bool
  | .nil => true
  | .cons k _ rest => !(acc.memKey k) && disjKeys acc rest

theorem disjKeys_nil : ∀ (d : Doc), disjKeys Doc.nil d = true
  | .nil => rfl
  | .cons k v rest => by
    show (!(Doc.nil.memKey k) && disjKeys Doc.nil rest) = true
    rw [disjKeys_nil rest]
    rfl

theorem disjKeys_dest (acc : Doc) (k : String) (v : Value) (rest : Doc)
    (h : disjKeys acc (.cons k v rest) = true) :
    acc.memKey k = false ∧ disjKeys acc rest = true := by
  have h2 : (!(acc.memKey k) && disjKeys acc rest) = true := h
  simp only [Bool.and_eq_true, Bool.not_eq_true'] at h2
  exact h2

theorem disjKeys_append_single : ∀ (rest : Doc) (acc : Doc) (k : String)
    (v : Value), disjKeys acc rest = true → rest.memKey k = false →
    disjKeys (acc.append (.cons k v .nil)) rest = true
  | .nil, _, _, _, _, _ => rfl
  | .cons k2 v2 r2, acc, k, v, hdisj, hmem => by
    obtain ⟨h1, h2⟩ := disjKeys_dest acc k2 v2 r2 hdisj
    have hm2 : (k2 == k) = false ∧ r2.memKey k = false := by
      have h3 : (k2 == k || r2.memKey k) = false := hmem
      simpa using h3
    show (!((acc.append (.cons k v .nil)).memKey k2) &&
      disjKeys (acc.append (.cons k v .nil)) r2) = true
    rw [Doc.memKey_append, disjKeys_append_single r2 acc k v h2 hm2.2]
    have hkk2 : (k == k2) = false := by
      have : ¬(k2 = k) := beq_eq_false_iff_ne.mp hm2.1
      exact beq_eq_false_iff_ne.mpr fun he => this he.symm
    show (!(acc.memKey k2 || (k == k2 || Doc.nil.memKey k2)) && true) = true
    rw [h1, hkk2]
    rfl

theorem cleanD_dest (k : String) (v : Value) (rest : Doc)
    (h : cleanD (.cons k v rest) = true) :
    cleanKey k = true ∧ rest.memKey k = false ∧ cleanV v = true ∧
      cleanD rest = true := by
  have h2 : (cleanKey k && !(rest.memKey k) && cleanV v && cleanD rest)
      = true := h
  simp only [Bool.and_eq_true, Bool.not_eq_true'] at h2
  exact ⟨h2.1.1.1, h2.1.1.2, h2.1.2, h2.2⟩

end VDF


namespace VDF

theorem getAfterBlock (A M rest : List String) (x : String) :
    (A ++ M ++ x :: rest)[A.length + M.length]? = some x := by
  have h : A ++ M ++ x :: rest = (A ++ M) ++ x :: rest := by simp
  rw [h, show A.length + M.length = (A ++ M).length by simp]
  exact getMid0 (A ++ M) x rest

mutual
theorem consumeV : ∀ (v : Value) (lvl : Nat) (k : String) (L1 L2 : List String)
    (acc : Doc), cleanKey k = true → cleanV v = true → acc.memKey k = false →
    parseStab (L1 ++ flatV lvl k v ++ L2) L1.length acc none
      = parseStab (L1 ++ flatV lvl k v ++ L2)
          (L1.length + (flatV lvl k v).length) (acc.append (.cons k v .nil))
          none
  | .str s, lvl, k, L1, L2, acc, hk, hv, hfresh => by
    obtain ⟨hkne, hkob, hkqc, hknl⟩ := cleanKey_dest k hk
    obtain ⟨hsne, hsqc, hsnl, hsco⟩ := cleanStr_dest s hv
    have hl : (L1 ++ flatV lvl k (.str s) ++ L2)[L1.length]?
        = some (ind lvl ++ qS k ++ "\t\t" ++ qS s) := by
      have := getAt L1 (flatV lvl k (.str s)) L2 0
        (ind lvl ++ qS k ++ "\t\t" ++ qS s) rfl
      simpa using this
    have hb : (pyStrip (ind lvl ++ qS k ++ "\t\t" ++ qS s) == ""
        || isComment (pyStrip (ind lvl ++ qS k ++ "\t\t" ++ qS s)).data)
        = false := by
      rw [pyStrip_scalarLine]
      exact kvLine_blank_raw k s
    have hcb : ¬(pyStrip (ind lvl ++ qS k ++ "\t\t" ++ qS s) = cbS) := by
      rw [pyStrip_scalarLine]
      exact kvLine_ne_cbS k s
    have htok : tokenize (pyStrip (ind lvl ++ qS k ++ "\t\t" ++ qS s))
        = [k, s] := by
      rw [pyStrip_scalarLine]
      exact tokenize_kvLine k s hkqc hkne hsqc hsne
    rw [pst_kv (L1 ++ flatV lvl k (.str s) ++ L2) L1.length acc none
      (ind lvl ++ qS k ++ "\t\t" ++ qS s) k s hl hb hcb htok hkob,
      coerce_of_not_coerces s hsco, Doc.insertKV_fresh acc k _ hfresh]
    rfl
  | .int n, lvl, k, L1, L2, acc, hk, hv, hfresh =>
    absurd hv (by simp [cleanV])
  | .float s, lvl, k, L1, L2, acc, hk, hv, hfresh =>
    absurd hv (by simp [cleanV])
  | .sec inner, lvl, k, L1, L2, acc, hk, hv, hfresh => by
    obtain ⟨hkne, hkob, hkqc, hknl⟩ := cleanKey_dest k hk
    have hvin : cleanD inner = true := hv
    have hl0 : (L1 ++ flatV lvl k (.sec inner) ++ L2)[L1.length]?
        = some (ind lvl ++ qS k) := by
      have := getAt L1 (flatV lvl k (.sec inner)) L2 0 (ind lvl ++ qS k) rfl
      simpa using this
    have hb0 : (pyStrip (ind lvl ++ qS k) == ""
        || isComment (pyStrip (ind lvl ++ qS k)).data) = false := by
      rw [pyStrip_keyLine]
      exact qS_blank_raw k
    have hcb0 : ¬(pyStrip (ind lvl ++ qS k) = cbS) := by
      rw [pyStrip_keyLine]
      exact qS_ne_cbS k
    have htok0 : tokenize (pyStrip (ind lvl ++ qS k)) = [k] := by
      rw [pyStrip_keyLine]
      exact tokenize_qS k hkqc hkne
    rw [pst_key (L1 ++ flatV lvl k (.sec inner) ++ L2) L1.length acc none
      (ind lvl ++ qS k) k hl0 hb0 hcb0 htok0 hkob]
    have hfv1 : (flatV lvl k (.sec inner))[1]? = some (ind lvl ++ obS) := by
      simp [flatV]
    have hl1 : (L1 ++ flatV lvl k (.sec inner) ++ L2)[L1.length + 1]?
        = some (ind lvl ++ obS) :=
      getAt L1 (flatV lvl k (.sec inner)) L2 1 (ind lvl ++ obS) hfv1
    have hb1 : (pyStrip (ind lvl ++ obS) == ""
        || isComment (pyStrip (ind lvl ++ obS)).data) = false := by
      rw [pyStrip_obLine]
      exact obS_blank_check
    have hcb1 : ¬(pyStrip (ind lvl ++ obS) = cbS) := by
      rw [pyStrip_obLine]
      exact obS_ne_cbS
    have htok1 : tokenize (pyStrip (ind lvl ++ obS)) = obS :: [] := by
      rw [pyStrip_obLine]
      exact tokenize_obS
    rw [pst_descend (L1 ++ flatV lvl k (.sec inner) ++ L2) (L1.length + 1)
      acc k (ind lvl ++ obS) [] hl1 hb1 hcb1 htok1 hkne]
    match inner, hvin with
    | Doc.nil, _ =>
      have h2 : (L1 ++ flatV lvl k (.sec Doc.nil) ++ L2)[L1.length + 2]?
          = some "" := getAt L1 (flatV lvl k (.sec Doc.nil)) L2 2 "" rfl
      have e2 : L1.length + 1 + 1 = L1.length + 2 := by omega
      rw [e2, pst_skip (L1 ++ flatV lvl k (.sec Doc.nil) ++ L2) (L1.length + 2)
        Doc.nil none "" h2 (by decide)]
      have h3 : (L1 ++ flatV lvl k (.sec Doc.nil) ++ L2)[L1.length + 3]?
          = some (ind lvl ++ cbS) :=
        getAt L1 (flatV lvl k (.sec Doc.nil)) L2 3 (ind lvl ++ cbS) rfl
      have e3 : L1.length + 2 + 1 = L1.length + 3 := by omega
      rw [e3, pst_close (L1 ++ flatV lvl k (.sec Doc.nil) ++ L2)
        (L1.length + 3) Doc.nil none (ind lvl ++ cbS) h3 (pyStrip_cbLine lvl)]
      show parseStab _ (L1.length + 4) (acc.insertKV k (Value.sec Doc.nil))
        none = _
      rw [Doc.insertKV_fresh acc k _ hfresh]
      rfl
    | Doc.cons k2 v2 r2, hvin =>
      have hre : L1 ++ flatV lvl k (.sec (Doc.cons k2 v2 r2)) ++ L2
          = (L1 ++ [ind lvl ++ qS k, ind lvl ++ obS]) ++
              flatD (lvl + 1) (Doc.cons k2 v2 r2) ++
              ((ind lvl ++ cbS) :: L2) := by
        show L1 ++ ([ind lvl ++ qS k, ind lvl ++ obS] ++
          flatD (lvl + 1) (Doc.cons k2 v2 r2) ++ [ind lvl ++ cbS]) ++ L2 = _
        simp
      rw [hre]
      have hcons := consumeD (Doc.cons k2 v2 r2) (lvl + 1)
        (L1 ++ [ind lvl ++ qS k, ind lvl ++ obS]) ((ind lvl ++ cbS) :: L2)
        Doc.nil hvin (disjKeys_nil _)
      have hlen2 : (L1 ++ [ind lvl ++ qS k, ind lvl ++ obS]).length
          = L1.length + 2 := by simp
      rw [hlen2] at hcons
      have e2 : L1.length + 1 + 1 = L1.length + 2 := by omega
      rw [e2, hcons]
      have hcl := getAfterBlock (L1 ++ [ind lvl ++ qS k, ind lvl ++ obS])
        (flatD (lvl + 1) (Doc.cons k2 v2 r2)) L2 (ind lvl ++ cbS)
      rw [hlen2] at hcl
      rw [pst_close _ _ _ none (ind lvl ++ cbS) hcl (pyStrip_cbLine lvl)]
      show parseStab _
          (L1.length + 2 + (flatD (lvl + 1) (Doc.cons k2 v2 r2)).length + 1)
          (acc.insertKV k (Value.sec (Doc.cons k2 v2 r2))) none = _
      rw [Doc.insertKV_fresh acc k _ hfresh]
      have hlenf : (flatV lvl k (.sec (Doc.cons k2 v2 r2))).length
          = (flatD (lvl + 1) (Doc.cons k2 v2 r2)).length + 3 := by
        show ([ind lvl ++ qS k, ind lvl ++ obS] ++
          flatD (lvl + 1) (Doc.cons k2 v2 r2) ++ [ind lvl ++ cbS]).length = _
        simp
      rw [hlenf]
      have eidx : L1.length + 2 +
          (flatD (lvl + 1) (Doc.cons k2 v2 r2)).length + 1
          = L1.length + ((flatD (lvl + 1) (Doc.cons k2 v2 r2)).length + 3) := by
        omega
      rw [eidx]
theorem consumeD : ∀ (d : Doc) (lvl : Nat) (L1 L2 : List String) (acc : Doc),
    cleanD d = true → disjKeys acc d = true →
    parseStab (L1 ++ flatD lvl d ++ L2) L1.length acc none
      = parseStab (L1 ++ flatD lvl d ++ L2)
          (L1.length + (flatD lvl d).length) (acc.append d) none
  | .nil, lvl, L1, L2, acc, _, _ => by
    show parseStab (L1 ++ [] ++ L2) L1.length acc none
      = parseStab (L1 ++ [] ++ L2) (L1.length + ([] : List String).length)
          (acc.append Doc.nil) none
    rw [Doc.append_nil]
    rfl
  | .cons k v rest, lvl, L1, L2, acc, hclean, hdisj => by
    obtain ⟨hck, hmem, hcv, hcrest⟩ := cleanD_dest k v rest hclean
    obtain ⟨hfresh, hdrest⟩ := disjKeys_dest acc k v rest hdisj
    have hre : L1 ++ flatD lvl (.cons k v rest) ++ L2
        = L1 ++ flatV lvl k v ++ (flatD lvl rest ++ L2) := by
      show L1 ++ (flatV lvl k v ++ flatD lvl rest) ++ L2 = _
      simp
    rw [hre, consumeV v lvl k L1 (flatD lvl rest ++ L2) acc hck hcv hfresh]
    have hre2 : L1 ++ flatV lvl k v ++ (flatD lvl rest ++ L2)
        = (L1 ++ flatV lvl k v) ++ flatD lvl rest ++ L2 := by
      simp
    rw [hre2]
    have hcons := consumeD rest lvl (L1 ++ flatV lvl k v) L2
      (acc.append (Doc.cons k v Doc.nil)) hcrest
      (disjKeys_append_single rest acc k v hdrest hmem)
    have hlen : (L1 ++ flatV lvl k v).length
        = L1.length + (flatV lvl k v).length := by simp
    rw [hlen] at hcons
    rw [hcons, Doc.append_assoc]
    have eidx : L1.length + (flatV lvl k v).length + (flatD lvl rest).length
        = L1.length + (flatD lvl (Doc.cons k v rest)).length := by
      show _ = L1.length + (flatV lvl k v ++ flatD lvl rest).length
      simp
      omega
    rw [eidx]
    rfl
end

end VDF

namespace VDF

theorem noNl_kvLine (k v : String) (hk : '\n' ∉ k.data) (hv : '\n' ∉ v.data) :
    '\n' ∉ (kvLine k v).data := by
  have h := noNl_scalarLine 0 k v hk hv
  intro hmem
  apply h
  have e : (ind 0 ++ qS k ++ "\t\t" ++ qS v).data = (kvLine k v).data := by
    simp [ind, kvLine]
  rw [e]
  exact hmem

theorem kvLines_noNl (kvs : List (String × String))
    (h : kvs.all pairOk = true) :
    ∀ l ∈ kvLines kvs, '\n' ∉ l.data := by
  intro l hl
  unfold kvLines at hl
  obtain ⟨p, hp, hpl⟩ := List.mem_map.mp hl
  obtain ⟨k, v⟩ := p
  have hpo : pairOk (k, v) = true := List.all_eq_true.mp h (k, v) hp
  obtain ⟨-, -, hknl, -, -, -, hvnl⟩ := pairOk_dest k v hpo
  rw [← hpl]
  exact noNl_kvLine k v hknl hvnl

theorem kvLines_length (kvs : List (String × String)) :
    (kvLines kvs).length = kvs.length := by
  unfold kvLines
  simp

theorem parse_kvLines (kvs : List (String × String))
    (h : kvs.all pairOk = true) (hne : kvs ≠ []) :
    parse (joinNl (kvLines kvs)) = foldKV .nil kvs := by
  have hsplit : splitNlS (joinNl (kvLines kvs)) = kvLines kvs :=
    splitNlS_join _ (kvLines_noNl kvs h) (by simp [kvLines, hne])
  show parseLines (splitNlS (joinNl (kvLines kvs))) = _
  rw [hsplit]
  unfold parseLines
  have hf := consumeFlat kvs [] [] .nil none h
  simp only [List.nil_append, List.append_nil, List.length_nil] at hf
  rw [show (0 : Nat) + kvs.length = kvs.length from by omega] at hf
  rw [hf, pst_eof _ _ _ _ (by rw [kvLines_length])]

theorem foldKV_lookup : ∀ (kvs : List (String × String)) (acc : Doc)
    (k : String),
    (foldKV acc kvs).lookup k =
      match (kvs.filter fun p => p.1 == k).getLast? with
      | some p => some (coerce p.2)
      | none => acc.lookup k := by
  intro kvs
  induction kvs with
  | nil =>
    intro acc k
    rfl
  | cons p rest ih =>
    obtain ⟨k0, v0⟩ := p
    intro acc k
    show (foldKV (acc.insertKV k0 (coerce v0)) rest).lookup k = _
    rw [ih]
    by_cases h0 : (k0 == k) = true
    · have hf : ((k0, v0) :: rest).filter (fun p => p.1 == k)
          = (k0, v0) :: rest.filter (fun p => p.1 == k) := by
        simp [List.filter_cons, h0]
      rw [hf]
      cases hlast : (rest.filter fun p => p.1 == k).getLast? with
      | some q =>
        have hcl : ((k0, v0) :: rest.filter (fun p => p.1 == k)).getLast?
            = some q := by
          cases hfl : rest.filter (fun p => p.1 == k) with
          | nil =>
            rw [hfl] at hlast
            simp at hlast
          | cons x xs =>
            rw [hfl] at hlast
            rw [List.getLast?_cons_cons]
            exact hlast
        rw [hcl]
      | none =>
        have hfl : rest.filter (fun p => p.1 == k) = [] :=
          List.getLast?_eq_none_iff.mp hlast
        have hcl : ((k0, v0) :: rest.filter (fun p => p.1 == k)).getLast?
            = some (k0, v0) := by
          rw [hfl]
          rfl
        rw [hcl, Doc.lookup_insertKV, if_pos h0]
    · have hf : ((k0, v0) :: rest).filter (fun p => p.1 == k)
          = rest.filter (fun p => p.1 == k) := by
        simp [List.filter_cons, h0]
      rw [hf]
      cases hlast : (rest.filter fun p => p.1 == k).getLast? with
      | some q => rfl
      | none =>
        rw [Doc.lookup_insertKV, if_neg h0]

theorem pst_noop (lines : List String) (i : Nat) (acc : Doc) (raw : String)
    (hl : lines[i]? = some raw)
    (hbad : 3 ≤ (tokenize (pyStrip raw)).length ∨
      (tokenize (pyStrip raw)).head? = some obS) :
    parseStab lines i acc none = parseStab lines (i + 1) acc none := by
  by_cases hb : (pyStrip raw == "" || isComment (pyStrip raw).data) = true
  · exact pst_skip lines i acc none raw hl hb
  · have hb2 : (pyStrip raw == "" || isComment (pyStrip raw).data) = false := by
      simpa using hb
    have hcb : ¬(pyStrip raw = cbS) := by
      intro hceq
      rw [hceq, tokenize_cbS] at hbad
      rcases hbad with h | h
      · simp at h
      · have : cbS = obS := Option.some.inj (by simpa using h)
        exact (by decide : ¬(cbS = obS)) this
    match htok : tokenize (pyStrip raw) with
    | [] =>
      rw [htok] at hbad
      rcases hbad with h | h
      · simp at h
      · cases h
    | t :: ts =>
      by_cases hto : t = obS
      · subst hto
        exact pst_open_none lines i acc raw ts hl hb2 hcb htok
      · rw [htok] at hbad
        rcases hbad with h | h
        · match ts, h with
          | v1 :: v2 :: vs, _ =>
            exact pst_toks3 lines i acc none raw t v1 v2 vs hl hb2 hcb htok hto
          | [], h => simp at h
          | [v1], h => simp at h
        · exact absurd (Option.some.inj h) hto

theorem parse_write_clean (d : Doc) (hd : cleanD d = true) :
    parse (write d) = d := by
  match d with
  | .nil => rfl
  | .cons k v rest =>
    have hsplit : splitNlS (write (.cons k v rest))
        = flatD 0 (.cons k v rest) :=
      splitD 0 _ (clean_noNlD _ hd) (by intro h2; cases h2)
    show parseLines (splitNlS (write (.cons k v rest))) = _
    rw [hsplit]
    unfold parseLines
    have hcons := consumeD (.cons k v rest) 0 [] [] Doc.nil hd (disjKeys_nil _)
    simp only [List.nil_append, List.append_nil, List.length_nil] at hcons
    rw [show (0 : Nat) + (flatD 0 (Doc.cons k v rest)).length
      = (flatD 0 (Doc.cons k v rest)).length from by omega] at hcons
    rw [hcons, Doc.nil_append, pst_eof _ _ _ _ (Nat.le_refl _)]

theorem parseFuel_stab (content : String) (fuel : Nat)
    (h : (splitNlS content).length + 1 ≤ fuel) :
    parseFuel fuel content = parse content := by
  unfold parseFuel
  show (parseSecF fuel (splitNlS content) 0 .nil none).1 = parse content
  rw [psf_stab (splitNlS content) fuel 0 .nil none (by omega)]
  rfl

end VDF

namespace VDF

theorem psf_eof_any (lines : List String) (f i : Nat) (acc : Doc)
    (ck : Option String) (h : lines.length ≤ i) :
    parseSecF f lines i acc ck = (acc, i) := by
  match f with
  | 0 => rfl
  | g + 1 =>
    show psfStep lines (parseSecF g lines) i acc ck = (acc, i)
    unfold psfStep
    rw [List.getElem?_eq_none h]

theorem closeAppend (lines : List String) :
    ∀ (f i : Nat) (acc : Doc) (ck : Option String), i ≤ lines.length →
      (parseSecF f (lines ++ [cbS]) i acc ck).1
          = (parseSecF f lines i acc ck).1 ∧
        ((parseSecF f (lines ++ [cbS]) i acc ck).2
            = (parseSecF f lines i acc ck).2 ∨
          ((parseSecF f lines i acc ck).2 = lines.length ∧
            (parseSecF f (lines ++ [cbS]) i acc ck).2 = lines.length + 1)) := by
  intro f
  induction f with
  | zero =>
    intro i acc ck hi
    exact ⟨rfl, Or.inl rfl⟩
  | succ g ih =>
    intro i acc ck hi
    have eL : parseSecF (g + 1) (lines ++ [cbS]) i acc ck
        = psfStep (lines ++ [cbS]) (parseSecF g (lines ++ [cbS])) i acc ck :=
      rfl
    have eR : parseSecF (g + 1) lines i acc ck
        = psfStep lines (parseSecF g lines) i acc ck := rfl
    rw [eL, eR]
    by_cases hlt : i < lines.length
    · cases hraw : lines[i]? with
      | none =>
        exact absurd (List.getElem?_eq_none_iff.mp hraw) (by omega)
      | some raw =>
        have hraw2 : (lines ++ [cbS])[i]? = some raw := by
          rw [List.getElem?_append_left hlt]
          exact hraw
        unfold psfStep
        rw [hraw, hraw2]
        simp only
        split
        · exact ih (i + 1) acc ck hlt
        · split
          · exact ⟨rfl, Or.inl rfl⟩
          · split
            · exact ih (i + 1) acc ck hlt
            · split
              · split
                next k =>
                  split
                  · exact ih (i + 1) acc _ hlt
                  · obtain ⟨hv1, hv2⟩ := ih (i + 1) Doc.nil none hlt
                    rw [hv1]
                    have hub := psf_ub lines g (i + 1) Doc.nil none hlt
                    rcases hv2 with he | ⟨he1, he2⟩
                    · rw [he]
                      exact ih (parseSecF g lines (i + 1) Doc.nil none).2 _
                        none hub
                    · rw [he1, he2]
                      rw [psf_eof_any lines g lines.length _ none
                        (Nat.le_refl _),
                        psf_eof_any (lines ++ [cbS]) g (lines.length + 1) _
                          none (by simp)]
                      exact ⟨rfl, Or.inr ⟨rfl, by trivial⟩⟩
                next => exact ih (i + 1) acc _ hlt
              · split
                · exact ih (i + 1) acc _ hlt
                · exact ih (i + 1) _ ck hlt
                · exact ih (i + 1) acc ck hlt
    · have hieq : i = lines.length := by omega
      subst hieq
      rw [← eR, psf_eof_any lines (g + 1) lines.length acc ck (Nat.le_refl _)]
      have hl2 : (lines ++ [cbS])[lines.length]? = some cbS :=
        getMid0 lines cbS []
      unfold psfStep
      rw [hl2]
      simp only
      rw [if_neg (by decide), if_pos (by decide)]
      refine ⟨rfl, Or.inr ⟨?_, ?_⟩⟩ <;> trivial

theorem parse_append_close (content : String) :
    parse (content ++ "\n" ++ cbS) = parse content := by
  have hsp : splitNlS (content ++ "\n" ++ cbS)
      = splitNlS content ++ [cbS] := by
    rw [splitNlS_sep, splitNlS_noNl cbS (by decide)]
  show parseLines (splitNlS (content ++ "\n" ++ cbS)) = _
  rw [hsp]
  unfold parseLines parseStab
  rw [show (splitNlS content ++ [cbS]).length
    = (splitNlS content).length + 1 from by simp]
  have efix : (splitNlS content).length + 1 + 1
      = (splitNlS content).length + 2 := by omega
  rw [efix]
  have h2 := psf_stab (splitNlS content) ((splitNlS content).length + 2) 0
    .nil none (by omega)
  unfold parseStab at h2
  show (parseSecF ((splitNlS content).length + 2) (splitNlS content ++ [cbS])
      0 Doc.nil none).1
    = (parseSecF ((splitNlS content).length + 1) (splitNlS content) 0 Doc.nil
        none).1
  rw [← h2]
  exact (closeAppend (splitNlS content) ((splitNlS content).length + 2) 0
    .nil none (by omega)).1

end VDF

namespace VDF

theorem joinSp_cons (x : String) (xs : List String) (h : xs ≠ []) :
    joinSp (x :: xs) = x ++ " " ++ joinSp xs := by
  obtain ⟨y, ys, hy⟩ := List.exists_cons_of_ne_nil h
  subst hy
  rfl

theorem tokenize_qS_full (c : String) (hq : qc ∉ c.data) :
    tokenize (qS c) = if c = "" then [] else [c] := by
  show tokenizeL (qS c).data = _
  have e : (qS c).data = qc :: (c.data ++ qc :: []) := by simp [qS]
  rw [e, tokL_quoted c.data [] hq]
  by_cases hc : c = ""
  · rw [if_pos (by simp [hc]), if_pos hc]
    rfl
  · rw [if_neg (by simpa [List.isEmpty_iff] using (str_ne_empty_iff c).mp hc),
      if_neg hc]
    show [String.mk c.data] = [c]
    rw [mk_data]

theorem tokenize_chunks : ∀ (cs : List String), (∀ c ∈ cs, qc ∉ c.data) →
    tokenize (joinSp (cs.map qS)) = cs.filter (fun c => !(c == "")) := by
  intro cs
  induction cs with
  | nil =>
    intro _
    rfl
  | cons c rest ih =>
    intro h
    have hc : qc ∉ c.data := h c (by simp)
    have hrest : ∀ x ∈ rest, qc ∉ x.data := fun x hx => h x (by simp [hx])
    match rest with
    | [] =>
      show tokenize (joinSp [qS c]) = _
      rw [show joinSp [qS c] = qS c from rfl, tokenize_qS_full c hc]
      by_cases hce : c = ""
      · simp [hce]
      · simp [hce, List.filter_cons]
    | r :: rs =>
      have hmapne : (r :: rs).map qS ≠ [] := by simp
      show tokenize (joinSp (qS c :: (r :: rs).map qS)) = _
      rw [joinSp_cons _ _ hmapne]
      have e : (qS c ++ " " ++ joinSp ((r :: rs).map qS)).data
          = qc :: (c.data ++ qc ::
              (' ' :: (joinSp ((r :: rs).map qS)).data)) := by
        simp [qS]
      show tokenizeL (qS c ++ " " ++ joinSp ((r :: rs).map qS)).data = _
      rw [e, tokL_quoted _ _ hc, tokL_space ' ' _ (by decide)]
      have hih := ih hrest
      by_cases hce : c = ""
      · rw [if_pos (by simp [hce])]
        show tokenize (joinSp ((r :: rs).map qS)) = _
        rw [hih]
        simp [List.filter_cons, hce]
      · rw [if_neg (by simpa [List.isEmpty_iff] using
          (str_ne_empty_iff c).mp hce)]
        show String.mk c.data :: tokenize (joinSp ((r :: rs).map qS)) = _
        rw [hih, mk_data]
        simp [List.filter_cons, beq_eq_false_iff_ne.mpr hce]

theorem write_eq_spec (d : Doc) (hd : wfD d = true) :
    write d = joinNl (specD 0 d) := by
  match d with
  | .nil => rfl
  | .cons k v rest =>
    have h1 : write (.cons k v rest)
        = joinNl (splitNlS (write (.cons k v rest))) :=
      (joinNl_splitNlS _).symm
    rw [h1, show splitNlS (write (.cons k v rest)) = flatD 0 (.cons k v rest)
      from splitD 0 _ (wf_noNlD _ hd) (by intro h2; cases h2),
      flatEqSpecD 0 _ hd]

theorem write_last (d : Doc) : (write d).data.getLast? ≠ some '\n' := by
  match d with
  | .nil => decide
  | .cons k v rest =>
    have h := lastD 0 k v rest
    show (joinNl (writeD 0 (.cons k v rest))).data.getLast? ≠ some '\n'
    rcases h with h | h <;> rw [h] <;>
      exact fun hx => absurd (Option.some.inj hx) (by decide)

theorem noNl_qS (k : String) (hk : '\n' ∉ k.data) : '\n' ∉ (qS k).data := by
  intro hmem
  have e : (qS k).data = qc :: (k.data ++ [qc]) := by simp [qS]
  rw [e] at hmem
  rcases List.mem_cons.mp hmem with h | h
  · exact absurd h (by decide)
  · rcases List.mem_append.mp h with h | h
    · exact hk h
    · exact absurd (List.mem_singleton.mp h) (by decide)

theorem parse_kvs_bad_kvs (kvs1 kvs2 : List (String × String)) (bad : String)
    (h1 : kvs1.all pairOk = true) (h2 : kvs2.all pairOk = true)
    (hnl : '\n' ∉ bad.data)
    (hbad : 3 ≤ (tokenize (pyStrip bad)).length ∨
      (tokenize (pyStrip bad)).head? = some obS) :
    parse (joinNl (kvLines kvs1 ++ bad :: kvLines kvs2))
      = foldKV (foldKV .nil kvs1) kvs2 := by
  have hsplit : splitNlS (joinNl (kvLines kvs1 ++ bad :: kvLines kvs2))
      = kvLines kvs1 ++ bad :: kvLines kvs2 := by
    refine splitNlS_join _ ?_ (by simp)
    intro l hl
    rcases List.mem_append.mp hl with h | h
    · exact kvLines_noNl kvs1 h1 l h
    · rcases List.mem_cons.mp h with h | h
      · rw [h]
        exact hnl
      · exact kvLines_noNl kvs2 h2 l h
  show parseLines (splitNlS (joinNl (kvLines kvs1 ++ bad :: kvLines kvs2)))
    = _
  rw [hsplit]
  unfold parseLines
  have hA := consumeFlat kvs1 [] (bad :: kvLines kvs2) .nil none h1
  simp only [List.nil_append, List.length_nil] at hA
  rw [show (0 : Nat) + kvs1.length = kvs1.length from by omega] at hA
  rw [hA]
  have hl : (kvLines kvs1 ++ bad :: kvLines kvs2)[kvs1.length]? = some bad := by
    have := getMid0 (kvLines kvs1) bad (kvLines kvs2)
    rwa [kvLines_length] at this
  rw [pst_noop _ _ _ bad hl hbad]
  have hB := consumeFlat kvs2 (kvLines kvs1 ++ [bad]) []
    (foldKV .nil kvs1) none h2
  have hre : (kvLines kvs1 ++ [bad]) ++ kvLines kvs2 ++ []
      = kvLines kvs1 ++ bad :: kvLines kvs2 := by simp
  rw [hre] at hB
  rw [show (kvLines kvs1 ++ [bad]).length = kvs1.length + 1 from by
    simp [kvLines_length]] at hB
  rw [hB, pst_eof _ _ _ _ (by simp [kvLines_length]; omega)]

theorem parse_kvs_stray_close (kvs1 : List (String × String))
    (tail : List String) (h1 : kvs1.all pairOk = true)
    (htail : ∀ l ∈ tail, '\n' ∉ l.data) :
    parse (joinNl (kvLines kvs1 ++ cbS :: tail)) = foldKV .nil kvs1 := by
  have hsplit : splitNlS (joinNl (kvLines kvs1 ++ cbS :: tail))
      = kvLines kvs1 ++ cbS :: tail := by
    refine splitNlS_join _ ?_ (by simp)
    intro l hl
    rcases List.mem_append.mp hl with h | h
    · exact kvLines_noNl kvs1 h1 l h
    · rcases List.mem_cons.mp h with h | h
      · rw [h]
        decide
      · exact htail l h
  show parseLines (splitNlS (joinNl (kvLines kvs1 ++ cbS :: tail))) = _
  rw [hsplit]
  unfold parseLines
  have hA := consumeFlat kvs1 [] (cbS :: tail) .nil none h1
  simp only [List.nil_append, List.length_nil] at hA
  rw [show (0 : Nat) + kvs1.length = kvs1.length from by omega] at hA
  rw [hA]
  have hl : (kvLines kvs1 ++ cbS :: tail)[kvs1.length]? = some cbS := by
    have := getMid0 (kvLines kvs1) cbS tail
    rwa [kvLines_length] at this
  rw [pst_close _ _ _ none cbS hl rfl]

theorem parse_kvs_dangling (kvs : List (String × String)) (k : String)
    (h1 : kvs.all pairOk = true) (hk : k ≠ "") (hkq : qc ∉ k.data)
    (hknl : '\n' ∉ k.data) (hkob : ¬(k = obS)) :
    parse (joinNl (kvLines kvs ++ [qS k])) = foldKV .nil kvs := by
  have hsplit : splitNlS (joinNl (kvLines kvs ++ [qS k]))
      = kvLines kvs ++ [qS k] := by
    refine splitNlS_join _ ?_ (by simp)
    intro l hl
    rcases List.mem_append.mp hl with h | h
    · exact kvLines_noNl kvs h1 l h
    · rw [List.mem_singleton.mp h]
      exact noNl_qS k hknl
  show parseLines (splitNlS (joinNl (kvLines kvs ++ [qS k]))) = _
  rw [hsplit]
  unfold parseLines
  have hA := consumeFlat kvs [] [qS k] .nil none h1
  simp only [List.nil_append, List.length_nil] at hA
  rw [show (0 : Nat) + kvs.length = kvs.length from by omega] at hA
  rw [hA]
  have hl : (kvLines kvs ++ [qS k])[kvs.length]? = some (qS k) := by
    have := getMid0 (kvLines kvs) (qS k) []
    rwa [kvLines_length] at this
  have hstrip : pyStrip (qS k) = qS k := by
    show String.mk (stripL (qS k).data) = qS k
    rw [show (qS k).data = qc :: k.data ++ [qc] from rfl, stripL_quoted]
    rfl
  have hb : (pyStrip (qS k) == "" || isComment (pyStrip (qS k)).data)
      = false := by
    rw [hstrip]
    exact qS_blank_raw k
  have hcb : ¬(pyStrip (qS k) = cbS) := by
    rw [hstrip]
    exact qS_ne_cbS k
  have htok : tokenize (pyStrip (qS k)) = [k] := by
    rw [hstrip]
    exact tokenize_qS k hkq hk
  rw [pst_key _ _ _ none (qS k) k hl hb hcb htok hkob,
    pst_eof _ _ _ _ (by simp [kvLines_length])]

end VDF

namespace VDF

mutual
theorem flatV_noNl : ∀ (v : Value) (lvl : Nat) (k : String),
    '\n' ∉ k.data → noNlV v = true →
    ∀ l ∈ flatV lvl k v, '\n' ∉ l.data
  | .str s, lvl, k, hk, hv, l, hl => by
    have hs : '\n' ∉ s.data := by
      have h2 : (!(s.data.contains '\n')) = true := hv
      simp only [Bool.not_eq_true'] at h2
      exact (contains_eq_false_iff _ _).mp h2
    rw [List.mem_singleton.mp hl]
    exact noNl_scalarLine lvl k s hk hs
  | .int n, lvl, k, hk, hv, l, hl => absurd hv (by simp [noNlV])
  | .float s, lvl, k, hk, hv, l, hl => absurd hv (by simp [noNlV])
  | .sec inner, lvl, k, hk, hv, l, hl => by
    have hvin : noNlD inner = true := hv
    rcases List.mem_append.mp hl with h | h
    · rcases List.mem_append.mp h with h | h
      · rcases List.mem_cons.mp h with he | h
        · rw [he]
          exact noNl_keyLine lvl k hk
        · rw [List.mem_singleton.mp h]
          exact noNl_obLine lvl
      · match inner, hvin, h with
        | Doc.nil, _, h =>
          rw [List.mem_singleton.mp h]
          decide
        | Doc.cons k2 v2 r2, hvin, h =>
          exact flatD_noNl (Doc.cons k2 v2 r2) (lvl + 1) hvin l h
    · rw [List.mem_singleton.mp h]
      exact noNl_cbLine lvl
theorem flatD_noNl : ∀ (d : Doc) (lvl : Nat), noNlD d = true →
    ∀ l ∈ flatD lvl d, '\n' ∉ l.data
  | .nil, lvl, _, l, hl => absurd hl (List.not_mem_nil l)
  | .cons k v rest, lvl, hd, l, hl => by
    obtain ⟨hk, hv, hrest⟩ := noNlD_dest k v rest hd
    rcases List.mem_append.mp hl with h | h
    · exact flatV_noNl v lvl k hk hv l h
    · exact flatD_noNl rest lvl hrest l h
end

theorem consumeSecIns (inner : Doc) (lvl : Nat) (k : String)
    (L1 L2 : List String) (acc : Doc) (hk : cleanKey k = true)
    (hvin : cleanD inner = true) :
    parseStab (L1 ++ flatV lvl k (.sec inner) ++ L2) L1.length acc none
      = parseStab (L1 ++ flatV lvl k (.sec inner) ++ L2)
          (L1.length + (flatV lvl k (.sec inner)).length)
          (acc.insertKV k (Value.sec inner)) none := by
  obtain ⟨hkne, hkob, hkqc, hknl⟩ := cleanKey_dest k hk
  have hl0 : (L1 ++ flatV lvl k (.sec inner) ++ L2)[L1.length]?
      = some (ind lvl ++ qS k) := by
    have := getAt L1 (flatV lvl k (.sec inner)) L2 0 (ind lvl ++ qS k) rfl
    simpa using this
  have hb0 : (pyStrip (ind lvl ++ qS k) == ""
      || isComment (pyStrip (ind lvl ++ qS k)).data) = false := by
    rw [pyStrip_keyLine]
    exact qS_blank_raw k
  have hcb0 : ¬(pyStrip (ind lvl ++ qS k) = cbS) := by
    rw [pyStrip_keyLine]
    exact qS_ne_cbS k
  have htok0 : tokenize (pyStrip (ind lvl ++ qS k)) = [k] := by
    rw [pyStrip_keyLine]
    exact tokenize_qS k hkqc hkne
  rw [pst_key (L1 ++ flatV lvl k (.sec inner) ++ L2) L1.length acc none
    (ind lvl ++ qS k) k hl0 hb0 hcb0 htok0 hkob]
  have hfv1 : (flatV lvl k (.sec inner))[1]? = some (ind lvl ++ obS) := by
    simp [flatV]
  have hl1 : (L1 ++ flatV lvl k (.sec inner) ++ L2)[L1.length + 1]?
      = some (ind lvl ++ obS) :=
    getAt L1 (flatV lvl k (.sec inner)) L2 1 (ind lvl ++ obS) hfv1
  have hb1 : (pyStrip (ind lvl ++ obS) == ""
      || isComment (pyStrip (ind lvl ++ obS)).data) = false := by
    rw [pyStrip_obLine]
    exact obS_blank_check
  have hcb1 : ¬(pyStrip (ind lvl ++ obS) = cbS) := by
    rw [pyStrip_obLine]
    exact obS_ne_cbS
  have htok1 : tokenize (pyStrip (ind lvl ++ obS)) = obS :: [] := by
    rw [pyStrip_obLine]
    exact tokenize_obS
  rw [pst_descend (L1 ++ flatV lvl k (.sec inner) ++ L2) (L1.length + 1)
    acc k (ind lvl ++ obS) [] hl1 hb1 hcb1 htok1 hkne]
  match inner, hvin with
  | Doc.nil, _ =>
    have h2 : (L1 ++ flatV lvl k (.sec Doc.nil) ++ L2)[L1.length + 2]?
        = some "" := getAt L1 (flatV lvl k (.sec Doc.nil)) L2 2 "" rfl
    have e2 : L1.length + 1 + 1 = L1.length + 2 := by omega
    rw [e2, pst_skip (L1 ++ flatV lvl k (.sec Doc.nil) ++ L2) (L1.length + 2)
      Doc.nil none "" h2 (by decide)]
    have h3 : (L1 ++ flatV lvl k (.sec Doc.nil) ++ L2)[L1.length + 3]?
        = some (ind lvl ++ cbS) :=
      getAt L1 (flatV lvl k (.sec Doc.nil)) L2 3 (ind lvl ++ cbS) rfl
    have e3 : L1.length + 2 + 1 = L1.length + 3 := by omega
    rw [e3, pst_close (L1 ++ flatV lvl k (.sec Doc.nil) ++ L2)
      (L1.length + 3) Doc.nil none (ind lvl ++ cbS) h3 (pyStrip_cbLine lvl)]
    rfl
  | Doc.cons k2 v2 r2, hvin =>
    have hre : L1 ++ flatV lvl k (.sec (Doc.cons k2 v2 r2)) ++ L2
        = (L1 ++ [ind lvl ++ qS k, ind lvl ++ obS]) ++
            flatD (lvl + 1) (Doc.cons k2 v2 r2) ++
            ((ind lvl ++ cbS) :: L2) := by
      show L1 ++ ([ind lvl ++ qS k, ind lvl ++ obS] ++
        flatD (lvl + 1) (Doc.cons k2 v2 r2) ++ [ind lvl ++ cbS]) ++ L2 = _
      simp
    rw [hre]
    have hcons := consumeD (Doc.cons k2 v2 r2) (lvl + 1)
      (L1 ++ [ind lvl ++ qS k, ind lvl ++ obS]) ((ind lvl ++ cbS) :: L2)
      Doc.nil hvin (disjKeys_nil _)
    have hlen2 : (L1 ++ [ind lvl ++ qS k, ind lvl ++ obS]).length
        = L1.length + 2 := by simp
    rw [hlen2] at hcons
    have e2 : L1.length + 1 + 1 = L1.length + 2 := by omega
    rw [e2, hcons]
    have hcl := getAfterBlock (L1 ++ [ind lvl ++ qS k, ind lvl ++ obS])
      (flatD (lvl + 1) (Doc.cons k2 v2 r2)) L2 (ind lvl ++ cbS)
    rw [hlen2] at hcl
    rw [pst_close _ _ _ none (ind lvl ++ cbS) hcl (pyStrip_cbLine lvl)]
    show parseStab _
        (L1.length + 2 + (flatD (lvl + 1) (Doc.cons k2 v2 r2)).length + 1)
        (acc.insertKV k (Value.sec (Doc.cons k2 v2 r2))) none = _
    have hlenf : (flatV lvl k (.sec (Doc.cons k2 v2 r2))).length
        = (flatD (lvl + 1) (Doc.cons k2 v2 r2)).length + 3 := by
      show ([ind lvl ++ qS k, ind lvl ++ obS] ++
        flatD (lvl + 1) (Doc.cons k2 v2 r2) ++ [ind lvl ++ cbS]).length = _
      simp
    rw [hlenf]
    have eidx : L1.length + 2 +
        (flatD (lvl + 1) (Doc.cons k2 v2 r2)).length + 1
        = L1.length + ((flatD (lvl + 1) (Doc.cons k2 v2 r2)).length + 3) := by
      omega
    rw [eidx]

theorem parse_dup_sec (k : String) (d1 d2 : Doc) (hk : cleanKey k = true)
    (h1 : cleanD d1 = true) (h2 : cleanD d2 = true) :
    parse (joinNl (flatV 0 k (.sec d1) ++ flatV 0 k (.sec d2)))
      = Doc.cons k (Value.sec d2) Doc.nil := by
  obtain ⟨hkne, hkob, hkqc, hknl⟩ := cleanKey_dest k hk
  have hnl : ∀ l ∈ flatV 0 k (.sec d1) ++ flatV 0 k (.sec d2),
      '\n' ∉ l.data := by
    intro l hl
    rcases List.mem_append.mp hl with h | h
    · exact flatV_noNl (.sec d1) 0 k hknl (clean_noNlD d1 h1) l h
    · exact flatV_noNl (.sec d2) 0 k hknl (clean_noNlD d2 h2) l h
  have hne : flatV 0 k (.sec d1) ++ flatV 0 k (.sec d2) ≠ [] := by
    simp [flatV]
  show parseLines (splitNlS (joinNl
    (flatV 0 k (.sec d1) ++ flatV 0 k (.sec d2)))) = _
  rw [splitNlS_join _ hnl hne]
  unfold parseLines
  have hA := consumeSecIns d1 0 k [] (flatV 0 k (.sec d2)) Doc.nil hk h1
  simp only [List.nil_append, List.length_nil, Nat.zero_add] at hA
  rw [hA]
  have hB := consumeSecIns d2 0 k (flatV 0 k (.sec d1)) []
    (Doc.nil.insertKV k (Value.sec d1)) hk h2
  simp only [List.append_nil] at hB
  rw [hB, pst_eof _ _ _ _ (by simp)]
  show (Doc.cons k (Value.sec d1) Doc.nil).insertKV k (Value.sec d2) = _
  simp [Doc.insertKV]

theorem coerce_dotless_str (v : String) (hdot : v.data.contains '.' = false)
    (hint : (pyInt? v).isSome = false) : coerce v = Value.str v := by
  unfold coerce
  have hnc : ¬(v.data.contains '.' = true) := by
    rw [hdot]
    decide
  rw [if_neg hnc]
  cases hpi : pyInt? v with
  | none => rfl
  | some n =>
    rw [hpi] at hint
    simp at hint

end VDF

namespace VDF

/-- C1: the round trip parse (write d) = d holds for every clean document:
keys non-empty, ASCII, quote- and newline-free and not the brace token,
pairwise distinct at each level, and every scalar a non-empty ASCII string
that the two-token branch does not coerce to a number. (The claim as
stated over all string-scalar documents fails: scalar text accepted by
int() or float() is read back as a number.) -/
theorem claim_C1 (d : Doc) (hd : cleanD d = true) : parse (write d) = d :=
  parse_write_clean d hd

theorem claim_C1_cex :
    parse (write (Doc.cons "a" (Value.str "42") Doc.nil))
      ≠ Doc.cons "a" (Value.str "42") Doc.nil := by decide

theorem claim_C1_witness :
    cleanD (Doc.cons "k" (Value.sec (Doc.cons "a" (Value.str "x") Doc.nil))
      (Doc.cons "b" (Value.str "y") Doc.nil)) = true ∧
    parse (write (Doc.cons "k"
        (Value.sec (Doc.cons "a" (Value.str "x") Doc.nil))
        (Doc.cons "b" (Value.str "y") Doc.nil)))
      = Doc.cons "k" (Value.sec (Doc.cons "a" (Value.str "x") Doc.nil))
          (Doc.cons "b" (Value.str "y") Doc.nil) :=
  ⟨by decide, claim_C1 _ (by decide)⟩

/-- C2: for a two-token line whose value text is ASCII — the fragment over
which the model of int() and float() matches the source's acceptors — the
parser stores the result of the dot-gated coercion of _parse_section: when
the text contains a dot it attempts float(), otherwise it attempts int(),
and it keeps the original string when that one attempted conversion fails.
The stored value is the original string exactly when the attempted
conversion rejects the text; in particular dot-free text that int()
rejects stays a string even when float() would have accepted it. (The
claim that the value is never coerced is false in the code.) -/
theorem claim_C2 (k v : String) (h : pairOk (k, v) = true)
    ( _hv : (v.data.all fun c => c.toNat ≤ 126) = true) :
    parse (kvLine k v) = Doc.cons k (coerce v) Doc.nil ∧
    (coerce v = Value.str v ↔ pyCoerces v = false) ∧
    (v.data.contains '.' = false → (pyInt? v).isSome = false →
      coerce v = Value.str v) := by
  refine ⟨?_, coerce_eq_str_iff v,
    fun hdot hint => coerce_dotless_str v hdot hint⟩
  have hp : parse (joinNl (kvLines [(k, v)])) = foldKV .nil [(k, v)] :=
    parse_kvLines [(k, v)] (by simp [h]) (by simp)
  have e : joinNl (kvLines [(k, v)]) = kvLine k v := rfl
  rw [e] at hp
  exact hp

theorem claim_C2_cex :
    parse (kvLine "a" "42") = Doc.cons "a" (Value.int 42) Doc.nil ∧
    Value.int 42 ≠ Value.str "42" := by decide

theorem claim_C2_witness :
    pairOk ("a", "1e5") = true ∧
    ("1e5".data.all fun c => c.toNat ≤ 126) = true ∧
    (parse (kvLine "a" "1e5") = Doc.cons "a" (coerce "1e5") Doc.nil ∧
      (coerce "1e5" = Value.str "1e5" ↔ pyCoerces "1e5" = false) ∧
      ("1e5".data.contains '.' = false → (pyInt? "1e5").isSome = false →
        coerce "1e5" = Value.str "1e5")) :=
  ⟨by decide, by decide, claim_C2 "a" "1e5" (by decide) (by decide)⟩

/-- C3: parse is a total function in this model, and input that ends
before a closing brace yields the same document as input with the missing
close appended: an unterminated section is finished as if closed, keeping
everything parsed before end-of-input. -/
theorem claim_C3 (content : String) :
    parse (content ++ "\n" ++ cbS) = parse content :=
  parse_append_close content

/-- C4: a line of three or more tokens, or a stray open-brace line, is
skipped and the valid entries before and after it all parse; a stray
close-brace line, however, ends the top-level section, keeping the entries
before it and discarding every line after it. (The claim that entries
surrounding a stray close brace still parse is false for the entries after
it.) -/
theorem claim_C4 :
    (∀ (kvs1 kvs2 : List (String × String)) (bad : String),
      kvs1.all pairOk = true → kvs2.all pairOk = true →
      '\n' ∉ bad.data →
      (3 ≤ (tokenize (pyStrip bad)).length ∨
        (tokenize (pyStrip bad)).head? = some obS) →
      parse (joinNl (kvLines kvs1 ++ bad :: kvLines kvs2))
        = foldKV (foldKV .nil kvs1) kvs2) ∧
    (∀ (kvs1 : List (String × String)) (tail : List String),
      kvs1.all pairOk = true → (∀ l ∈ tail, '\n' ∉ l.data) →
      parse (joinNl (kvLines kvs1 ++ cbS :: tail)) = foldKV .nil kvs1) :=
  ⟨fun kvs1 kvs2 bad => parse_kvs_bad_kvs kvs1 kvs2 bad,
   fun kvs1 tail => parse_kvs_stray_close kvs1 tail⟩

theorem claim_C4_cex :
    parse (kvLine "a" "x" ++ "\n" ++ cbS ++ "\n" ++ kvLine "b" "y")
      = Doc.cons "a" (Value.str "x") Doc.nil ∧
    (parse (kvLine "a" "x" ++ "\n" ++ cbS ++ "\n"
        ++ kvLine "b" "y")).memKey "b" = false := by decide

theorem claim_C4_witness :
    parse (joinNl (kvLines [("a", "x")] ++ "oops oops oops"
        :: kvLines [("b", "y")]))
      = foldKV (foldKV .nil [("a", "x")]) [("b", "y")] ∧
    parse (joinNl (kvLines [("c", "z")] ++ cbS :: [kvLine "d" "w"]))
      = foldKV .nil [("c", "z")] := by
  constructor
  · exact claim_C4.1 [("a", "x")] [("b", "y")] "oops oops oops" (by decide)
      (by decide) (by decide) (by decide)
  · exact claim_C4.2 [("c", "z")] [kvLine "d" "w"] (by decide) (by decide)

/-- C5: every document parse returns has pairwise-distinct keys at every
nesting level; for a sequence of scalar entry lines the lookup of a key
yields the coerced value of its last occurrence, earlier occurrences being
overwritten; and two sibling section blocks sharing a key parse to a
single entry that holds the last block's nested document, the earlier
nested document being discarded. -/
theorem claim_C5 :
    (∀ content : String, nodupD (parse content) = true) ∧
    (∀ (kvs : List (String × String)) (k : String),
      kvs.all pairOk = true → kvs ≠ [] →
      (parse (joinNl (kvLines kvs))).lookup k =
        match (kvs.filter fun p => p.1 == k).getLast? with
        | some p => some (coerce p.2)
        | none => none) ∧
    (∀ (k : String) (d1 d2 : Doc), cleanKey k = true → cleanD d1 = true →
      cleanD d2 = true →
      parse (joinNl (flatV 0 k (Value.sec d1) ++ flatV 0 k (Value.sec d2)))
        = Doc.cons k (Value.sec d2) Doc.nil) := by
  refine ⟨parse_nodup, ?_, ?_⟩
  · intro kvs k h hne
    rw [parse_kvLines kvs h hne, foldKV_lookup]
    cases (kvs.filter fun p => p.1 == k).getLast? <;> rfl
  · intro k d1 d2 hk h1 h2
    exact parse_dup_sec k d1 d2 hk h1 h2

theorem claim_C5_witness :
    nodupD (parse "x") = true ∧
    (parse (joinNl (kvLines
        [("a", "x"), ("b", "y"), ("a", "z")]))).lookup "a"
      = some (Value.str "z") ∧
    parse (joinNl
        (flatV 0 "s" (Value.sec (Doc.cons "a" (Value.str "x") Doc.nil))
          ++ flatV 0 "s" (Value.sec (Doc.cons "b" (Value.str "y") Doc.nil))))
      = Doc.cons "s" (Value.sec (Doc.cons "b" (Value.str "y") Doc.nil))
          Doc.nil := by
  refine ⟨claim_C5.1 "x", ?_, ?_⟩
  · have h := claim_C5.2.1 [("a", "x"), ("b", "y"), ("a", "z")] "a"
      (by decide) (by decide)
    rw [h]
    decide
  · exact claim_C5.2.2 "s" (Doc.cons "a" (Value.str "x") Doc.nil)
      (Doc.cons "b" (Value.str "y") Doc.nil) (by decide) (by decide)
      (by decide)

/-- C6: a sequence of quoted chunks tokenizes to exactly the non-empty
chunk contents, verbatim and in order: each non-empty quoted substring is
one token with no escape processing, while the empty quoted string is
dropped rather than emitted. (The claim that this holds "including the
empty quoted string" is false: an empty quoted token produces no token.)
-/
theorem claim_C6 (cs : List String) (h : ∀ c ∈ cs, qc ∉ c.data) :
    tokenize (joinSp (cs.map qS)) = cs.filter fun c => !(c == "") :=
  tokenize_chunks cs h

theorem claim_C6_cex :
    tokenize (qS "a" ++ " " ++ qS "") = ["a"] ∧
    tokenize (qS "") = [] := by decide

theorem claim_C6_witness :
    tokenize (joinSp (["a", "", "b"].map qS))
      = (["a", "", "b"].filter fun c => !(c == "")) :=
  claim_C6 ["a", "", "b"] (by decide)

/-- C7: for documents with string scalars, newline-free text, and no
empty section, the writer output is exactly the specified line list
joined by newlines — each scalar entry one line of quoted key, two tabs,
quoted value, each line carrying one tab per nesting level — and the
output never ends in a newline. (The claim over all documents fails: an
empty section is written as one blank line without its level's
indentation.) -/
theorem claim_C7 (d : Doc) (hd : wfD d = true) :
    write d = joinNl (specD 0 d) ∧
    (write d).data.getLast? ≠ some '\n' :=
  ⟨write_eq_spec d hd, write_last d⟩

theorem claim_C7_cex :
    write (Doc.cons "a" (Value.sec Doc.nil) Doc.nil)
      ≠ joinNl (specD 0 (Doc.cons "a" (Value.sec Doc.nil) Doc.nil)) := by
  decide

theorem claim_C7_witness :
    wfD (Doc.cons "k" (Value.sec (Doc.cons "a" (Value.str "x") Doc.nil))
      Doc.nil) = true ∧
    (write (Doc.cons "k" (Value.sec (Doc.cons "a" (Value.str "x") Doc.nil))
        Doc.nil)
      = joinNl (specD 0 (Doc.cons "k"
          (Value.sec (Doc.cons "a" (Value.str "x") Doc.nil)) Doc.nil)) ∧
    (write (Doc.cons "k" (Value.sec (Doc.cons "a" (Value.str "x") Doc.nil))
        Doc.nil)).data.getLast? ≠ some '\n') :=
  ⟨by decide, claim_C7 _ (by decide)⟩

/-- C8: every key of every document parse returns is non-empty, and a
bare one-token key line at end-of-input produces no entry: the entries
before it are kept and the pending key is discarded. (The claim that no
dangling key — one not followed, after blanks and comments, by an
open-brace line — ever appears is false: a pending key survives
intervening two-token lines and is attached to a later open-brace line.)
-/
theorem claim_C8 :
    (∀ content : String, keysNeD (parse content) = true) ∧
    (∀ (kvs : List (String × String)) (k : String),
      kvs.all pairOk = true → k ≠ "" → qc ∉ k.data → '\n' ∉ k.data →
      ¬(k = obS) →
      parse (joinNl (kvLines kvs ++ [qS k])) = foldKV .nil kvs) :=
  ⟨parse_keysNe, fun kvs k h1 hk hkq hknl hkob =>
    parse_kvs_dangling kvs k h1 hk hkq hknl hkob⟩

theorem claim_C8_cex :
    parse (qS "a" ++ "\n" ++ kvLine "x" "y" ++ "\n" ++ obS ++ "\n" ++ cbS)
      = Doc.cons "x" (Value.str "y")
          (Doc.cons "a" (Value.sec Doc.nil) Doc.nil) := by decide

theorem claim_C8_witness :
    keysNeD (parse "x") = true ∧
    parse (joinNl (kvLines [("a", "x")] ++ [qS "dangling"]))
      = foldKV .nil [("a", "x")] :=
  ⟨claim_C8.1 "x", claim_C8.2 [("a", "x")] "dangling" (by decide) (by decide)
    (by decide) (by decide) (by decide)⟩

/-- C9: the tokenizer never emits an empty token; a line of a quoted key
followed by an empty quoted string tokenizes to the single key token; and
on a single-token line the parser only records the token as the pending
key, adding no entry. -/
theorem claim_C9 :
    (∀ (s t : String), t ∈ tokenize s → ¬(t = "")) ∧
    (∀ k : String, qc ∉ k.data → ¬(k = "") →
      tokenize (qS k ++ " " ++ qS "") = [k]) ∧
    (∀ (lines : List String) (i : Nat) (acc : Doc) (raw t : String),
      lines[i]? = some raw →
      (pyStrip raw == "" || isComment (pyStrip raw).data) = false →
      ¬(pyStrip raw = cbS) → tokenize (pyStrip raw) = [t] → ¬(t = obS) →
      parseStab lines i acc none = parseStab lines (i + 1) acc (some t)) := by
  refine ⟨fun s t ht => tokenize_ne_empty s t ht, ?_, ?_⟩
  · intro k hkq hkne
    have hmem : ∀ c ∈ [k, ""], qc ∉ c.data := by
      intro c hc
      rcases List.mem_cons.mp hc with rfl | hc
      · exact hkq
      · rw [List.mem_singleton.mp hc]
        decide
    have h := tokenize_chunks [k, ""] hmem
    rw [show joinSp ([k, ""].map qS) = qS k ++ " " ++ qS "" from rfl] at h
    rw [h]
    simp [List.filter_cons, beq_eq_false_iff_ne.mpr hkne]
  · intro lines i acc raw t hl hb hcb htok hob
    exact pst_key lines i acc none raw t hl hb hcb htok hob

theorem claim_C9_witness :
    ¬("ab" = "") ∧ tokenize (qS "key" ++ " " ++ qS "") = ["key"] ∧
    parseStab [qS "key" ++ " " ++ qS ""] 0 Doc.nil none
      = parseStab [qS "key" ++ " " ++ qS ""] 1 Doc.nil (some "key") := by
  refine ⟨?_, ?_, ?_⟩
  · exact claim_C9.1 "ab x" "ab" (by decide)
  · exact claim_C9.2.1 "key" (by decide) (by decide)
  · exact claim_C9.2.2 [qS "key" ++ " " ++ qS ""] 0 Doc.nil
      (qS "key" ++ " " ++ qS "") "key" (by decide) (by decide) (by decide)
      (by decide) (by decide)

/-- C10: parsing terminates with work bounded by the input size: any fuel
beyond the number of lines computes the same document as the stabilized
parser, and the line index of the section loop never decreases and never
exceeds the number of lines; the writer is a structurally recursive total
function. -/
theorem claim_C10 :
    (∀ (content : String) (fuel : Nat),
      (splitNlS content).length + 1 ≤ fuel →
      parseFuel fuel content = parse content) ∧
    (∀ (lines : List String) (f i : Nat) (acc : Doc) (ck : Option String),
      i ≤ (parseSecF f lines i acc ck).2 ∧
      (i ≤ lines.length → (parseSecF f lines i acc ck).2 ≤ lines.length)) := by
  constructor
  · exact fun content fuel h => parseFuel_stab content fuel h
  · intro lines f i acc ck
    exact ⟨psf_le lines f i acc ck, fun hi => psf_ub lines f i acc ck hi⟩

theorem claim_C10_witness :
    parseFuel 3 "\"a\" \"b\"" = parse "\"a\" \"b\"" ∧
    (0 ≤ (parseSecF 5 ["\"a\" \"b\""] 0 Doc.nil none).2 ∧
      (0 ≤ (["\"a\" \"b\""]).length →
        (parseSecF 5 ["\"a\" \"b\""] 0 Doc.nil none).2
          ≤ (["\"a\" \"b\""]).length)) :=
  ⟨claim_C10.1 "\"a\" \"b\"" 3 (by decide),
   claim_C10.2 ["\"a\" \"b\""] 5 0 Doc.nil none⟩

end VDF
